import Mathlib

set_option maxHeartbeats 1000000

/-!  Verification development for the `ExperimentKB` knowledge-base class of
the hedwig repository (core/kb.py).  The rdflib graph is embedded as a list
of string triples; Python sets become `Finset`s, Python dicts become either
explicit key-list/function pairs (where the key set is observable) or plain
functions with the defaultdict default (where it is not).  The recursive
`closure` traversal of `ExperimentKB.__init__` is embedded with explicit
fuel: `none` models a Python run that would not terminate (or would blow the
recursion limit); every theorem about a finished knowledge base assumes the
traversal returned.  -/

namespace Hedwig

/-- An RDF triple (subject, predicate, object); URIs and literal values are
both rendered as strings, mirroring the rdflib graph consumed by
`ExperimentKB.__init__`.  A graph is a list of triples; rdflib stores a set
of triples, so `buildKB` deduplicates its input first. -/
structure Triple where
  s : String
  p : String
  o : String
deriving DecidableEq

/-- All subjects of triples with the given predicate and object, in graph
order: models `g.subjects(predicate=..., object=...)`. -/
def subjectsPO (g : List Triple) (p o : String) : List String :=
  (g.filter (fun t => decide (t.p = p ∧ t.o = o))).map (fun t => t.s)

/-- All objects of triples with the given subject and predicate, in graph
order: models `g.objects(subject=..., predicate=...)`. -/
def objectsSP (g : List Triple) (s p : String) : List String :=
  (g.filter (fun t => decide (t.s = s ∧ t.p = p))).map (fun t => t.o)

/-- All (subject, object) pairs of triples with the given predicate, in
graph order: models `g.subject_objects(predicate=...)`. -/
def subjectObjectsP (g : List Triple) (p : String) : List (String × String) :=
  (g.filter (fun t => decide (t.p = p))).map (fun t => (t.s, t.o))

/-- Modelled from the spec: settings.py (constants EXAMPLE_SCHEMA, HEDWIG)
is not in src/.  The HEDWIG namespace URI string interpolated by
`"%s" % HEDWIG` in the no-examples error message. -/
def hedwigNS : String := "http://kt.ijs.si/hedwig#"

/-- Modelled from the spec: the designated example class `HEDWIG.Example`. -/
def hedwigExample : String := hedwigNS ++ "Example"

/-- Modelled from the spec: the `HEDWIG.annotated_with` link property. -/
def hedwigAnnotatedWith : String := hedwigNS ++ "annotated_with"

/-- Modelled from the spec: the `HEDWIG.annotation` property on a link node
(named `...Uri` here only because of naming constraints of this file). -/
def hedwigAnnotationUri : String := hedwigNS ++ "annotation"

/-- Modelled from the spec: the `HEDWIG.weight` property on a link node. -/
def hedwigWeight : String := hedwigNS ++ "weight"

/-- Modelled from the spec: the `HEDWIG.score` property of an example. -/
def hedwigScore : String := hedwigNS ++ "score"

/-- Modelled from the spec: the `HEDWIG.class_label` property of an
example. -/
def hedwigClassLabel : String := hedwigNS ++ "class_label"

/-- The standard `RDF.type` URI of rdflib. -/
def rdfType : String := "http://www.w3.org/1999/02/22-rdf-syntax-ns#type"

/-- The standard `RDFS.subClassOf` URI of rdflib. -/
def rdfsSubClassOf : String := "http://www.w3.org/2000/01/rdf-schema#subClassOf"

/-- The standard `RDFS.domain` URI of rdflib. -/
def rdfsDomain : String := "http://www.w3.org/2000/01/rdf-schema#domain"

/-- The standard `RDFS.range` URI of rdflib. -/
def rdfsRange : String := "http://www.w3.org/2000/01/rdf-schema#range"

/-- The score of an example: a numeric score (kept as its literal string;
no claim depends on float semantics) or a categorical class label.  Mirrors
kb.py lines 74-84, where `score` is either `float(...)` or `str(...)`. -/
inductive Score where
  | ranked (v : String)
  | labeled (v : String)
deriving DecidableEq

/-- Modelled from the spec: example.py (class Example) is not in src/.  The
two mutually exclusive score variants of §3 of the spec, `Ranked` vs
`Labeled`. -/
inductive TargetType where
  | ranked
  | labeled
deriving DecidableEq

/-- One example of the population: dense id, source URI, score or label,
ordered annotation list, sparse weight map.  Mirrors the `Example(...)`
construction at kb.py line 87 (weights kept as literal strings). -/
structure Example where
  id : Nat
  uri : String
  score : Score
  annotations : List String
  weights : List (String × String)
deriving DecidableEq

/-- Modelled from the spec: example.py is not in src/; per spec §3 the
variant of `score` (Ranked vs Labeled) is the example's target type. -/
def Example.target_type (ex : Example) : TargetType :=
  match ex.score with
  | Score.ranked _ => TargetType.ranked
  | Score.labeled _ => TargetType.labeled

/-- The errors construction can raise.  `noExamples` is the explicit
`raise Exception(...)` of kb.py line 94; `annotationMissing` and
`scoreAndLabelMissing` are the `IndexError`s of lines 62 and 83;
`unknownUri` is the `KeyError` of line 181; `stackOverflow` stands for a
recursive `closure` call that never returns (fuel exhausted). -/
inductive KBError where
  | annotationMissing (link : String)
  | scoreAndLabelMissing (exUri : String)
  | noExamples (msg : String)
  | unknownUri (uri : String)
  | stackOverflow
deriving DecidableEq

/-- The message of the no-examples error, kb.py lines 94-95 (the literal
line-continuation whitespace of the Python source is normalised to a single
space). -/
def noExamplesMsg : String :=
  "No examples provided! Examples should be instances of " ++ hedwigNS ++ "."

/-- Python's `uri.startswith(ns)`: the code points of `ns` are a prefix of
those of `uri` (spelled on `String.data` so that it evaluates inside the
kernel). -/
def strStartsWith (uri ns : String) : Bool :=
  ns.data.isPrefixOf uri.data

/-- Is this resource user defined?  kb.py lines 229-237: true when no
namespace list is configured, else true iff the URI starts with one of the
configured namespace prefixes. -/
def user_defined (user_namespaces : List String) (uri : String) : Bool :=
  if user_namespaces.isEmpty then true
  else user_namespaces.any (fun ns => strStartsWith uri ns)

/-- Python dict update `weights[annotation] = v` (kb.py line 70). -/
def updateAssoc (m : List (String × String)) (k v : String) : List (String × String) :=
  if m.any (fun kv => decide (kv.1 = k)) then
    m.map (fun kv => if kv.1 = k then (k, v) else kv)
  else m ++ [(k, v)]

/-- The per-link annotation loop of kb.py lines 57-72: for each link node,
read its first `annotation` object (an `IndexError` when there is none) and
its optional first `weight`. -/
def loadLinks (g : List Triple) :
    List String → List String → List (String × String) →
    Except KBError (List String × List (String × String))
  | [], anns, ws => Except.ok (anns, ws)
  | link :: rest, anns, ws =>
    match objectsSP g link hedwigAnnotationUri with
    | [] => Except.error (KBError.annotationMissing link)
    | a :: _ =>
      let ws2 := match objectsSP g link hedwigWeight with
        | [] => ws
        | w :: _ => updateAssoc ws a w
      loadLinks g rest (anns ++ [a]) ws2

/-- The score part of the example loop, kb.py lines 74-84: a numeric score
if present, else the first class label (an `IndexError` when both are
absent). -/
def loadScore (g : List Triple) (uri : String) : Except KBError Score :=
  match objectsSP g uri hedwigScore with
  | v :: _ => Except.ok (Score.ranked v)
  | [] =>
    match objectsSP g uri hedwigClassLabel with
    | v :: _ => Except.ok (Score.labeled v)
    | [] => Except.error (KBError.scoreAndLabelMissing uri)

/-- The example loop of kb.py lines 45-91 over the enumerated example URIs. -/
def loadExamples (g : List Triple) :
    List (Nat × String) → Except KBError (List Example)
  | [] => Except.ok []
  | (i, uri) :: rest =>
    match loadLinks g (objectsSP g uri hedwigAnnotatedWith) [] [] with
    | Except.error e => Except.error e
    | Except.ok (anns, ws) =>
      match loadScore g uri with
      | Except.error e => Except.error e
      | Except.ok sc =>
        match loadExamples g rest with
        | Except.error e => Except.error e
        | Except.ok exs => Except.ok (⟨i, uri, sc, anns, ws⟩ :: exs)

/-- The example URIs: subjects typed as `HEDWIG.Example` (kb.py line 41). -/
def exampleUris (g : List Triple) : List String :=
  subjectsPO g rdfType hedwigExample

/-- The dict `uri_to_idx` (kb.py line 86): index of a URI in the example
URI list (the subjects of the deduplicated graph are pairwise distinct, so
first match equals the dict's last-write). -/
def uriToIdx : List String → String → Option Nat
  | [], _ => none
  | u :: rest, x => if x = u then some 0 else (uriToIdx rest x).map (fun n => n + 1)

/-- The recorded `add_sub_class` calls of kb.py lines 100-109: one
(sub, super) edge per user-defined subClassOf fact, followed (when
`instances_as_leaves`) by one per user-defined type fact. -/
def hierarchyEdges (g : List Triple) (uns : List String) (ial : Bool) :
    List (String × String) :=
  (subjectObjectsP g rdfsSubClassOf).filter
      (fun e => user_defined uns e.1 && user_defined uns e.2)
    ++ (if ial then
          (subjectObjectsP g rdfType).filter
            (fun e => user_defined uns e.1 && user_defined uns e.2)
        else [])

/-- The list `self.sub_class_of[p]` built by the `add_sub_class` calls in
`edges`: the supers of `p`, in insertion order. -/
def sub_class_of (edges : List (String × String)) (p : String) : List String :=
  (edges.filter (fun e => decide (e.1 = p))).map (fun e => e.2)

/-- The list `self.super_class_of[p]` built by the `add_sub_class` calls in
`edges`: the subs (children) of `p`, in insertion order. -/
def super_class_of (edges : List (String × String)) (p : String) : List String :=
  (edges.filter (fun e => decide (e.2 = p))).map (fun e => e.1)

/-- The key set of the `super_class_of` defaultdict: every predicate that
ever appeared as the object of an `add_sub_class` call, in first-appearance
order (rdflib/Python-2 dict order is not deterministic; the spec demands a
deterministic order, and the claims are order-independent). -/
def superKeys (edges : List (String × String)) : List String :=
  (edges.map (fun e => e.2)).dedup

/-- The synthetic root label, kb.py line 141. -/
def dummy_root : String := "root"

/-- The root classes of kb.py lines 136-138: predicates with children but no
recorded parent. -/
def rootsOf (edges : List (String × String)) : List String :=
  (superKeys edges).filter (fun p => decide (sub_class_of edges p = []))

/-- All `add_sub_class` calls after attaching the dummy root (kb.py lines
143-144). -/
def edgesWithRoot (edges : List (String × String)) : List (String × String) :=
  edges ++ (rootsOf edges).map (fun r => (r, dummy_root))

/-- The set `self.predicates`: the dummy root plus every sub and super of a
recorded `add_sub_class` call (kb.py lines 142, 246). -/
def predicatesOf (edges : List (String × String)) : Finset String :=
  (dummy_root :: (edges.map (fun e => e.1) ++ edges.map (fun e => e.2))).toFinset

/-- The seed of `sub_class_of_closure` (kb.py lines 146-148): predicates
that have children start from their direct-parent set; every other
predicate starts from the defaultdict default, the empty set. -/
def initClosures (edges : List (String × String)) : String → Finset String :=
  fun p => if p ∈ superKeys edges then (sub_class_of edges p).toFinset else ∅

/-- `self.members[k].add(i)` on the members defaultdict. -/
def addMember (m : String → Finset Nat) (k : String) (i : Nat) :
    String → Finset Nat :=
  fun q => if q = k then insert i (m q) else m q

/-- The unary member accumulation of kb.py lines 123-134: with
`instances_as_leaves` every annotation concept gets the example id; without
it the id goes to each declared `RDF.type` of the annotation instance. -/
def initMembers (g : List Triple) (ial : Bool) :
    List Example → (String → Finset Nat) → (String → Finset Nat)
  | [], m => m
  | ex :: rest, m =>
    let m2 := ex.annotations.foldl
      (fun acc inst =>
        if ial then addMember acc inst ex.id
        else (objectsSP g inst rdfType).foldl
          (fun acc2 obj => addMember acc2 obj ex.id) acc)
      m
    initMembers g ial rest m2

/-- The mutable state threaded through the recursive `closure` traversal of
kb.py lines 151-171: `self.sub_class_of_closure`, `self.members`,
`self.levels`. -/
structure TravState where
  closures : String → Finset String
  members : String → Finset Nat
  levels : Nat → Finset String

mutual

/-- One call `closure(pred, lvl)` of kb.py lines 151-165, with explicit
fuel standing for the Python call stack: record the level, then either
return the (leaf) member set unchanged, or fold over the children --
propagating the parent's current closure into each child before recursing
-- and overwrite the parent's members with the union of the children's
returns. -/
def closureRun (superOf : String → List String) :
    Nat → String → Nat → TravState → Option (TravState × Finset Nat)
  | 0, _, _, _ => none
  | fuel + 1, pred, lvl, st =>
    let st1 : TravState :=
      ⟨st.closures, st.members,
        fun l => if l = lvl then insert pred (st.levels l) else st.levels l⟩
    match superOf pred with
    | [] => some (st1, st1.members pred)
    | c :: cs =>
      match closureList superOf fuel pred lvl (c :: cs) st1 ∅ with
      | none => none
      | some (st2, mems) =>
        some (⟨st2.closures,
               fun q => if q = pred then mems else st2.members q,
               st2.levels⟩, mems)

/-- The `for child in children` loop inside `closure` (kb.py lines
157-160): update the child's closure with the parent's current closure,
recurse into the child, and accumulate the returned member sets. -/
def closureList (superOf : String → List String) :
    Nat → String → Nat → List String → TravState → Finset Nat →
    Option (TravState × Finset Nat)
  | 0, _, _, _, _, _ => none
  | _ + 1, _, _, [], st, mems => some (st, mems)
  | fuel + 1, pred, lvl, child :: rest, st, mems =>
    let st2 : TravState :=
      ⟨fun q => if q = child then st.closures child ∪ st.closures pred
                else st.closures q,
        st.members, st.levels⟩
    match closureRun superOf fuel child (lvl + 1) st2 with
    | none => none
    | some (st3, r) => closureList superOf fuel pred lvl rest st3 (mems ∪ r)

end

mutual

/-- Specification mirror of `closureRun`'s return value: the union, over
the leaves reachable from `pred`, of their `m`-member sets.  Same fuel
discipline as `closureRun`. -/
def leafMems (superOf : String → List String) (m : String → Finset Nat) :
    Nat → String → Option (Finset Nat)
  | 0, _ => none
  | fuel + 1, pred =>
    match superOf pred with
    | [] => some (m pred)
    | c :: cs => leafMemsList superOf m fuel (c :: cs) ∅

/-- List companion of `leafMems`, mirroring `closureList`. -/
def leafMemsList (superOf : String → List String) (m : String → Finset Nat) :
    Nat → List String → Finset Nat → Option (Finset Nat)
  | 0, _, _ => none
  | _ + 1, [], acc => some acc
  | fuel + 1, child :: rest, acc =>
    match leafMems superOf m fuel child with
    | none => none
    | some r => leafMemsList superOf m fuel rest (acc ∪ r)

end

/-- A Python dict from example id to a list of example ids, with its
observable key list (insertion order) and total lookup function (absent
keys give the defaultdict-style `[]`). -/
structure NatListMap where
  keys : List Nat
  fn : Nat → List Nat

/-- The empty dict. -/
def emptyNLM : NatListMap := ⟨[], fun _ => []⟩

/-- kb.py lines 182-185 (and 188-191): append `v` to the list at key `k`,
creating the key when absent. -/
def addPair (m : NatListMap) (k v : Nat) : NatListMap :=
  if k ∈ m.keys then
    ⟨m.keys, fun x => if x = k then m.fn k ++ [v] else m.fn x⟩
  else
    ⟨m.keys ++ [k], fun x => if x = k then [v] else m.fn x⟩

/-- The pair loop of kb.py lines 180-191 for one binary predicate: map both
URIs through `uri_to_idx` (a `KeyError` when a URI is not an example) and
record the pair in the forward and reverse maps. -/
def buildPairs (uToI : String → Option Nat) :
    List (String × String) → NatListMap → NatListMap →
    Except KBError (NatListMap × NatListMap)
  | [], f, r => Except.ok (f, r)
  | (s, o) :: rest, f, r =>
    match uToI s with
    | none => Except.error (KBError.unknownUri s)
    | some el1 =>
      match uToI o with
      | none => Except.error (KBError.unknownUri o)
      | some el2 => buildPairs uToI rest (addPair f el1 el2) (addPair r el2 el1)

/-- The loop of kb.py lines 177-191 over all binary predicates, building
the two defaultdicts `binary_members` and `reverse_binary_members`. -/
def buildBinaryMembers (g : List Triple) (uToI : String → Option Nat) :
    List String → (String → NatListMap) → (String → NatListMap) →
    Except KBError ((String → NatListMap) × (String → NatListMap))
  | [], bm, rbm => Except.ok (bm, rbm)
  | p :: rest, bm, rbm =>
    match buildPairs uToI (subjectObjectsP g p) (bm p) (rbm p) with
    | Except.error e => Except.error e
    | Except.ok (f, r) =>
      buildBinaryMembers g uToI rest
        (fun q => if q = p then f else bm q)
        (fun q => if q = p then r else rbm q)

/-- The user-defined object predicates whose declared domain and range are
both the example class (kb.py lines 112-120; the two Python sets are
modelled as a deduplicated list). -/
def binary_predicatesOf (g : List Triple) (uns : List String) : List String :=
  ((subjectsPO g rdfsDomain hedwigExample).filter
    (fun p => decide (p ∈ subjectsPO g rdfsRange hedwigExample)
      && user_defined uns p)).dedup

/-- `get_empty_domain` (kb.py lines 326-330): a bitset covering no
examples. -/
def get_empty_domain (n : Nat) : List Bool := List.replicate n false

/-- `get_full_domain` (kb.py lines 320-324): a bitset covering all
examples. -/
def get_full_domain (n : Nat) : List Bool := List.replicate n true

/-- `indices_to_bits` (kb.py lines 344-351): start from the empty domain
and set each index.  (`bitarray` raises on an out-of-range index; `List.set`
ignores it -- every call site stays in range and the round-trip claim is
restricted to indices below `n`.) -/
def indices_to_bits (n : Nat) (indices : List Nat) : List Bool :=
  indices.foldl (fun bits idx => bits.set idx true) (get_empty_domain n)

/-- `bits_to_indices` (kb.py lines 338-342): the positions of the set bits,
in increasing order (`bitarray.search` of the one-bit pattern). -/
def bits_to_indices (bits : List Bool) : List Nat :=
  (List.range bits.length).filter (fun i => bits.getD i false)

/-- The label-frequency statistics of kb.py lines 224-227: a defaultdict
from observed score value to its count. -/
def distributionOf (examples : List Example) : Score → Nat :=
  examples.foldl
    (fun d ex => fun s => if s = ex.score then d s + 1 else d s)
    (fun _ => 0)

/-- The label carried by an example, when its score is the Labeled variant
(the values accumulated into `self.class_values`, kb.py line 84). -/
def scoreLabel (ex : Example) : Option String :=
  match ex.score with
  | Score.labeled v => some v
  | Score.ranked _ => none

/-- A dict from example id to bitset, with its observable key list. -/
structure NatBitsMap where
  keys : List Nat
  fn : Nat → List Bool

/-- The finished, read-only knowledge base: every field is an attribute of
`ExperimentKB` after `__init__` returns (the float statistics `mean`/`sd`
of the Ranked branch are omitted: no claim touches floating point).
Dict-valued attributes are total functions; where Python would raise
`KeyError` on a genuinely absent key of a plain dict (`bit_members`,
`binary_domains`) the model returns the value built from the empty set --
no claim depends on those keys. -/
structure KB where
  examples : List Example
  examples_uris : List String
  predicates : Finset String
  binary_predicates : List String
  edges : List (String × String)
  sub_class_of_closure : String → Finset String
  members : String → Finset Nat
  levels : Nat → Finset String
  binary_members : String → NatListMap
  reverse_binary_members : String → NatListMap
  binary_domains : String → (List Bool × List Bool)
  bit_members : String → List Bool
  bit_binary_members : String → NatBitsMap
  reverse_bit_binary_members : String → NatBitsMap
  class_values : Finset String
  target_type : TargetType
  distribution : Score → Nat

/-- `n_examples` (kb.py lines 314-318). -/
def KB.n_examples (kb : KB) : Nat := kb.examples.length

/-- Assembly of the final `ExperimentKB` attributes from the construction
stages (kb.py lines 193-227). -/
def assembleKB (examples : List Example) (uris : List String)
    (binPreds : List String) (tt : TargetType)
    (edges : List (String × String)) (stF : TravState)
    (bm rbm : String → NatListMap) : KB :=
  let n := examples.length
  { examples := examples
    examples_uris := uris
    predicates := predicatesOf edges
    binary_predicates := binPreds
    edges := edges
    sub_class_of_closure := stF.closures
    members := stF.members
    levels := stF.levels
    binary_members := bm
    reverse_binary_members := rbm
    binary_domains := fun p =>
      (indices_to_bits n (bm p).keys, indices_to_bits n (rbm p).keys)
    bit_members := fun p =>
      indices_to_bits n ((stF.members p).sort (fun a b => a ≤ b))
    bit_binary_members := fun p =>
      ⟨(bm p).keys, fun el => indices_to_bits n ((bm p).fn el)⟩
    reverse_bit_binary_members := fun p =>
      ⟨(rbm p).keys, fun el => indices_to_bits n ((rbm p).fn el)⟩
    class_values := (examples.filterMap scoreLabel).toFinset
    target_type := tt
    distribution := if tt = TargetType.ranked then fun _ => 0
                    else distributionOf examples }

/-- `ExperimentKB.__init__` (kb.py lines 20-227): load the examples (error
when none), record the filtered hierarchy edges, attach the dummy root,
seed the closures, run the recursive traversal from the root, then index
the binary predicates.  `fuel` bounds the traversal's call stack. -/
def buildKB (fuel : Nat) (g0 : List Triple) (uns : List String) (ial : Bool) :
    Except KBError KB :=
  match loadExamples g0.dedup (exampleUris g0.dedup).enum with
  | Except.error e => Except.error e
  | Except.ok [] => Except.error (KBError.noExamples noExamplesMsg)
  | Except.ok (ex0 :: tl) =>
    match closureRun
        (super_class_of (edgesWithRoot (hierarchyEdges g0.dedup uns ial)))
        fuel dummy_root 0
        ⟨initClosures (edgesWithRoot (hierarchyEdges g0.dedup uns ial)),
          initMembers g0.dedup ial (ex0 :: tl) (fun _ => ∅), fun _ => ∅⟩ with
    | none => Except.error KBError.stackOverflow
    | some (stF, _) =>
      match buildBinaryMembers g0.dedup (uriToIdx (exampleUris g0.dedup))
          (binary_predicatesOf g0.dedup uns)
          (fun _ => emptyNLM) (fun _ => emptyNLM) with
      | Except.error e => Except.error e
      | Except.ok (bm, rbm) =>
        Except.ok (assembleKB (ex0 :: tl) (exampleUris g0.dedup)
          (binary_predicatesOf g0.dedup uns) ex0.target_type
          (edgesWithRoot (hierarchyEdges g0.dedup uns ial)) stF bm rbm)

/-- The polymorphic return value of `get_members` (kb.py returns a bitset,
a set of ids, or one of the two dict shapes depending on the branch). -/
inductive MembersView where
  | bits (b : List Bool)
  | ids (s : Finset Nat)
  | binBits (m : NatBitsMap)
  | binIds (m : NatListMap)
deriving Inhabited

/-- `get_members` (kb.py lines 269-286): unary predicates dispatch on
membership in `self.predicates`; everything else falls through to the
binary defaultdicts. -/
def KB.get_members (kb : KB) (predicate : String) (bit : Bool) : MembersView :=
  if predicate ∈ kb.predicates then
    if bit then MembersView.bits (kb.bit_members predicate)
    else MembersView.ids (kb.members predicate)
  else
    if bit then MembersView.binBits (kb.bit_binary_members predicate)
    else MembersView.binIds (kb.binary_members predicate)

/-- `get_reverse_members` (kb.py lines 288-299). -/
def KB.get_reverse_members (kb : KB) (predicate : String) (bit : Bool) :
    MembersView :=
  if bit then MembersView.binBits (kb.reverse_bit_binary_members predicate)
  else MembersView.binIds (kb.reverse_binary_members predicate)

/-- `get_domains` (kb.py lines 301-306). -/
def KB.get_domains (kb : KB) (predicate : String) : List Bool × List Bool :=
  kb.binary_domains predicate

/-- `super_classes` (kb.py lines 250-254). -/
def KB.super_classes (kb : KB) (pred : String) : Finset String :=
  kb.sub_class_of_closure pred

/-- `get_subclasses` (kb.py lines 263-267), on the predicate's label. -/
def KB.get_subclasses (kb : KB) (label : String) : List String :=
  super_class_of kb.edges label

/-- Keys of a `NatListMap` govern its lists: absent keys hold `[]`
(the invariant every map built by `addPair` from `emptyNLM` satisfies). -/
def keysOK (m : NatListMap) : Prop := ∀ i, i ∉ m.keys → m.fn i = []

/-- The forward and reverse maps record exactly inverse pairs. -/
def pairInv (f r : NatListMap) : Prop := ∀ i j, j ∈ f.fn i ↔ i ∈ r.fn j

/-- Reachability downward through the `super_class_of` children function:
`Reach superOf a b` holds when `b` is `a` itself or can be found from `a`
by repeatedly stepping to a child. -/
inductive Reach (superOf : String → List String) : String → String → Prop
  | refl (a : String) : Reach superOf a a
  | head {a b c : String} : b ∈ superOf a → Reach superOf b c → Reach superOf a c

/-- Concrete fixture: one labeled example annotated with concept `A`, and
the hierarchy edge `A subClassOf B`.  With user namespace `http://ex/` the
hierarchy is exactly `A ⊂ B ⊂ root`, and `A` is a reachable leaf. -/
def gWhier : List Triple := [
  ⟨"http://x/e0", rdfType, hedwigExample⟩,
  ⟨"http://x/e0", hedwigClassLabel, "pos"⟩,
  ⟨"http://x/e0", hedwigAnnotatedWith, "http://x/l0"⟩,
  ⟨"http://x/l0", hedwigAnnotationUri, "http://ex/A"⟩,
  ⟨"http://ex/A", rdfsSubClassOf, "http://ex/B"⟩ ]

/-- Concrete fixture: one labeled example with no annotations and an empty
user hierarchy. -/
def gWnoann : List Triple := [
  ⟨"http://x/e0", rdfType, hedwigExample⟩,
  ⟨"http://x/e0", hedwigClassLabel, "pos"⟩ ]

/-- Concrete fixture from spec §8: three labeled examples and a binary
predicate `linkedTo` with pairs (0,1), (1,2). -/
def gWbin : List Triple := [
  ⟨"http://x/e0", rdfType, hedwigExample⟩,
  ⟨"http://x/e0", hedwigClassLabel, "a"⟩,
  ⟨"http://x/e1", rdfType, hedwigExample⟩,
  ⟨"http://x/e1", hedwigClassLabel, "b"⟩,
  ⟨"http://x/e2", rdfType, hedwigExample⟩,
  ⟨"http://x/e2", hedwigClassLabel, "a"⟩,
  ⟨"http://ex/linkedTo", rdfsDomain, hedwigExample⟩,
  ⟨"http://ex/linkedTo", rdfsRange, hedwigExample⟩,
  ⟨"http://x/e0", "http://ex/linkedTo", "http://x/e1"⟩,
  ⟨"http://x/e1", "http://ex/linkedTo", "http://x/e2"⟩ ]

/-- A throwaway knowledge base used only as the impossible-branch default
of the concrete fixtures below. -/
def defaultKB : KB :=
  ⟨[], [], ∅, [], [], fun _ => ∅, fun _ => ∅, fun _ => ∅,
    fun _ => emptyNLM, fun _ => emptyNLM, fun _ => ([], []),
    fun _ => [], fun _ => ⟨[], fun _ => []⟩, fun _ => ⟨[], fun _ => []⟩,
    ∅, TargetType.ranked, fun _ => 0⟩

/-- A topological rank for the `gWhier` hierarchy `A ⊂ B ⊂ root`. -/
def rankW : String → Nat :=
  fun s => if s = "root" then 2 else if s = "http://ex/B" then 1 else 0

/-- The knowledge base built from `gWhier`. -/
def kbWhier : KB :=
  match buildKB 64 gWhier ["http://ex/"] true with
  | Except.ok kb => kb
  | Except.error _ => defaultKB

/-- The knowledge base built from `gWnoann`. -/
def kbWnoann : KB :=
  match buildKB 64 gWnoann ["http://ex/"] true with
  | Except.ok kb => kb
  | Except.error _ => defaultKB

/-- The knowledge base built from `gWbin`. -/
def kbWbin : KB :=
  match buildKB 64 gWbin ["http://ex/"] true with
  | Except.ok kb => kb
  | Except.error _ => defaultKB

/-! ## Bitset lemmas -/

lemma length_foldl_set (l : List Nat) (b0 : List Bool) :
    (l.foldl (fun bits idx => bits.set idx true) b0).length = b0.length := by
  induction l generalizing b0 with
  | nil => rfl
  | cons i rest ih => rw [List.foldl_cons, ih, List.length_set]

lemma getD_set_true (b0 : List Bool) (i j : Nat) :
    (b0.set i true).getD j false = true ↔
      (j = i ∧ j < b0.length) ∨ b0.getD j false = true := by
  rw [List.getD_eq_getElem?_getD, List.getD_eq_getElem?_getD, List.getElem?_set]
  by_cases h : i = j
  · subst h
    by_cases hi : i < b0.length
    · simp [hi]
    · simp only [if_pos rfl, if_neg hi]
      rw [List.getElem?_eq_none (by omega)]
      simp [hi]
  · simp only [if_neg h]
    refine ⟨fun hb => Or.inr hb, ?_⟩
    rintro (⟨hji, -⟩ | hb)
    · exact absurd hji.symm h
    · exact hb

lemma getD_foldl_set (l : List Nat) (b0 : List Bool) (j : Nat) :
    (l.foldl (fun bits idx => bits.set idx true) b0).getD j false = true ↔
      (j ∈ l ∧ j < b0.length) ∨ b0.getD j false = true := by
  induction l generalizing b0 with
  | nil => simp
  | cons i rest ih =>
    rw [List.foldl_cons, ih, List.length_set, getD_set_true]
    constructor
    · rintro (⟨hm, hlt⟩ | (⟨rfl, hlt⟩ | hb))
      · exact Or.inl ⟨List.mem_cons_of_mem i hm, hlt⟩
      · exact Or.inl ⟨List.mem_cons_self j rest, hlt⟩
      · exact Or.inr hb
    · rintro (⟨hm, hlt⟩ | hb)
      · rcases List.mem_cons.mp hm with rfl | hm
        · exact Or.inr (Or.inl ⟨rfl, hlt⟩)
        · exact Or.inl ⟨hm, hlt⟩
      · exact Or.inr (Or.inr hb)

lemma length_indices_to_bits (n : Nat) (l : List Nat) :
    (indices_to_bits n l).length = n := by
  rw [indices_to_bits, length_foldl_set, get_empty_domain, List.length_replicate]

lemma getD_indices_to_bits (n : Nat) (l : List Nat) (j : Nat) :
    (indices_to_bits n l).getD j false = true ↔ j ∈ l ∧ j < n := by
  rw [indices_to_bits, getD_foldl_set]
  have hrep : (get_empty_domain n).getD j false = false := by
    rw [get_empty_domain, List.getD_eq_getElem?_getD, List.getElem?_replicate]
    by_cases hj : j < n <;> simp [hj]
  rw [hrep, get_empty_domain, List.length_replicate]
  simp

lemma mem_bits_to_indices (bits : List Bool) (j : Nat) :
    j ∈ bits_to_indices bits ↔ j < bits.length ∧ bits.getD j false = true := by
  simp [bits_to_indices, List.mem_filter, List.mem_range]

/-- C4: for every index set `S` contained in `[0, n)`, converting to a
bitset with `indices_to_bits` and back with `bits_to_indices` yields
exactly `S` (as a set of indices), and the produced bitset has length `n`
(kb.py lines 338-351). -/
theorem c4_bitset_roundtrip (n : Nat) (S : List Nat) (hS : ∀ i ∈ S, i < n) :
    (bits_to_indices (indices_to_bits n S)).toFinset = S.toFinset ∧
      (indices_to_bits n S).length = n := by
  refine ⟨?_, length_indices_to_bits n S⟩
  ext j
  simp only [List.mem_toFinset, mem_bits_to_indices, length_indices_to_bits,
    getD_indices_to_bits]
  exact ⟨fun h => h.2.1, fun h => ⟨hS j h, h, hS j h⟩⟩

/-- Witness for C4 at the concrete index set `[0, 2]` with `n = 3`. -/
theorem c4_bitset_roundtrip_witness :
    (∀ i ∈ [0, 2], i < 3) ∧
      ((bits_to_indices (indices_to_bits 3 [0, 2])).toFinset =
          ([0, 2] : List Nat).toFinset ∧
        (indices_to_bits 3 [0, 2]).length = 3) :=
  ⟨by decide, c4_bitset_roundtrip 3 [0, 2] (by decide)⟩

/-! ## The user-defined test -/

/-- C8: `user_defined` accepts every identifier when the configured
namespace list is empty, and otherwise accepts an identifier exactly when
it starts with at least one configured prefix (kb.py lines 229-237). -/
theorem c8_user_defined (uns : List String) (uri : String) :
    user_defined uns uri = true ↔
      uns = [] ∨ ∃ ns ∈ uns, strStartsWith uri ns = true := by
  rw [user_defined]
  by_cases h : uns.isEmpty
  · rw [if_pos h]
    simp [List.isEmpty_iff.mp h]
  · rw [if_neg h]
    rw [List.any_eq_true]
    have hne : uns ≠ [] := fun hc => h (by simp [hc])
    simp [hne]

/-- Witness for C8: the empty namespace list accepts an arbitrary URI, and
a concrete prefix list accepts exactly the matching URI. -/
theorem c8_user_defined_witness :
    (user_defined [] "http://any/thing" = true ↔
        ([] : List String) = [] ∨
          ∃ ns ∈ ([] : List String), strStartsWith "http://any/thing" ns = true) ∧
      (user_defined ["http://ex/"] "http://other/a" = true ↔
        ["http://ex/"] = [] ∨
          ∃ ns ∈ ["http://ex/"], strStartsWith "http://other/a" ns = true) :=
  ⟨c8_user_defined [] "http://any/thing",
    c8_user_defined ["http://ex/"] "http://other/a"⟩

/-! ## Loading errors -/

lemma loadExamples_ok_score {g : List Triple} {l : List (Nat × String)}
    {exs : List Example} (h : loadExamples g l = Except.ok exs) :
    ∀ p ∈ l, ∃ sc, loadScore g p.2 = Except.ok sc := by
  induction l generalizing exs with
  | nil => intro p hp; cases hp
  | cons hd tl ih =>
    intro p hp
    obtain ⟨i, uri⟩ := hd
    rw [loadExamples] at h
    rcases hll : loadLinks g (objectsSP g uri hedwigAnnotatedWith) [] [] with e | aw
    · rw [hll] at h; cases h
    · rw [hll] at h
      rcases hsc : loadScore g uri with e | sc
      · rw [hsc] at h; cases h
      · rw [hsc] at h
        rcases hre : loadExamples g tl with e | exs2
        · rw [hre] at h; cases h
        · rcases List.mem_cons.mp hp with rfl | hp2
          · exact ⟨sc, hsc⟩
          · exact ih hre p hp2

lemma mem_enumFrom_of_mem {l : List String} {u : String} (h : u ∈ l) :
    ∀ n, ∃ i, (i, u) ∈ l.enumFrom n := by
  induction l with
  | nil => cases h
  | cons v rest ih =>
    intro n
    rcases List.mem_cons.mp h with rfl | h2
    · exact ⟨n, by simp⟩
    · obtain ⟨i, hi⟩ := ih h2 (n + 1)
      exact ⟨i, by simp [List.enumFrom_cons, hi]⟩

lemma mem_enum_of_mem {l : List String} {u : String} (h : u ∈ l) :
    ∃ i, (i, u) ∈ l.enum :=
  mem_enumFrom_of_mem h 0

/-- C5: when the graph types no subject as the example class, construction
fails with the no-examples error, whose message interpolates the HEDWIG
namespace of the required example type (kb.py lines 93-95); no knowledge
base is produced. -/
theorem c5_no_examples_error (fuel : Nat) (g0 : List Triple)
    (uns : List String) (ial : Bool) (h : exampleUris g0.dedup = []) :
    buildKB fuel g0 uns ial =
        Except.error (KBError.noExamples noExamplesMsg) ∧
      noExamplesMsg =
        "No examples provided! Examples should be instances of "
          ++ hedwigNS ++ "." := by
  refine ⟨?_, rfl⟩
  rw [buildKB]
  simp only [h, List.enum_nil, loadExamples]

/-- Witness for C5: the empty graph has no examples and construction
returns the no-examples error. -/
theorem c5_no_examples_error_witness :
    exampleUris (List.dedup ([] : List Triple)) = [] ∧
      buildKB 5 [] [] true =
        Except.error (KBError.noExamples noExamplesMsg) :=
  ⟨by decide, (c5_no_examples_error 5 [] [] true (by decide)).1⟩

/-- C9: when some example subject has neither a score triple nor a
class-label triple, construction raises (the `IndexError` of kb.py line 83,
modelled as `scoreAndLabelMissing`) instead of proceeding with a default
score. -/
theorem c9_missing_score_and_label (fuel : Nat) (g0 : List Triple)
    (uns : List String) (ial : Bool) (uri : String)
    (huri : uri ∈ exampleUris g0.dedup)
    (hs : objectsSP g0.dedup uri hedwigScore = [])
    (hl : objectsSP g0.dedup uri hedwigClassLabel = []) :
    ∃ e, buildKB fuel g0 uns ial = Except.error e := by
  have hscore : loadScore g0.dedup uri =
      Except.error (KBError.scoreAndLabelMissing uri) := by
    rw [loadScore, hs, hl]
  rcases hle : loadExamples g0.dedup (exampleUris g0.dedup).enum with e | exs
  · exact ⟨e, by rw [buildKB]; simp only [hle]⟩
  · obtain ⟨i, hmem⟩ := mem_enum_of_mem huri
    obtain ⟨sc, hsc⟩ := loadExamples_ok_score hle (i, uri) hmem
    rw [hscore] at hsc
    cases hsc

/-- Witness for C9: a graph with one example subject carrying neither score
nor label makes construction fail. -/
theorem c9_missing_score_and_label_witness :
    (Except.isOk (buildKB 8
      [⟨"http://x/e0", rdfType, hedwigExample⟩] [] true) : Bool) = false := by
  obtain ⟨e, he⟩ := c9_missing_score_and_label 8
    [⟨"http://x/e0", rdfType, hedwigExample⟩] [] true "http://x/e0"
    (by decide) (by decide) (by decide)
  rw [he]
  rfl

/-! ## Binary member map lemmas -/

lemma keysOK_empty : keysOK emptyNLM := fun _ _ => rfl

lemma keysOK_addPair {m : NatListMap} (h : keysOK m) (k v : Nat) :
    keysOK (addPair m k v) := by
  intro i hi
  rw [addPair] at hi ⊢
  by_cases hk : k ∈ m.keys
  · rw [if_pos hk] at hi ⊢
    have hik : i ≠ k := fun hik => hi (hik ▸ hk)
    simp only [if_neg hik]
    exact h i hi
  · rw [if_neg hk] at hi ⊢
    simp only [List.mem_append, List.mem_singleton, not_or] at hi
    simp only [if_neg hi.2]
    exact h i hi.1

lemma mem_fn_addPair {m : NatListMap} (hm : keysOK m) (k v x y : Nat) :
    y ∈ (addPair m k v).fn x ↔ (x = k ∧ y = v) ∨ y ∈ m.fn x := by
  rw [addPair]
  by_cases hk : k ∈ m.keys
  · rw [if_pos hk]
    by_cases hx : x = k
    · subst hx; simp; tauto
    · simp [hx]
  · rw [if_neg hk]
    by_cases hx : x = k
    · subst hx; simp [hm x hk]
    · simp [hx]

lemma mem_keys_addPair (m : NatListMap) (k v x : Nat) :
    x ∈ (addPair m k v).keys ↔ x ∈ m.keys ∨ x = k := by
  rw [addPair]
  by_cases hk : k ∈ m.keys
  · rw [if_pos hk]
    exact ⟨Or.inl, fun h => h.elim id (fun hx => hx ▸ hk)⟩
  · rw [if_neg hk]
    simp

lemma pairInv_addPair {f r : NatListMap} (hf : keysOK f) (hr : keysOK r)
    (h : pairInv f r) (a b : Nat) : pairInv (addPair f a b) (addPair r b a) := by
  intro i j
  rw [mem_fn_addPair hf, mem_fn_addPair hr, h i j]
  tauto

lemma buildPairs_inv {uToI : String → Option Nat} :
    ∀ (L : List (String × String)) (f r f' r' : NatListMap),
      keysOK f → keysOK r → pairInv f r →
      buildPairs uToI L f r = Except.ok (f', r') →
      keysOK f' ∧ keysOK r' ∧ pairInv f' r' := by
  intro L
  induction L with
  | nil =>
    intro f r f' r' hf hr hinv h
    rw [buildPairs] at h
    cases h
    exact ⟨hf, hr, hinv⟩
  | cons so rest ih =>
    intro f r f' r' hf hr hinv h
    obtain ⟨s, o⟩ := so
    rw [buildPairs] at h
    rcases h1 : uToI s with _ | el1
    · rw [h1] at h; cases h
    · rw [h1] at h
      rcases h2 : uToI o with _ | el2
      · rw [h2] at h; cases h
      · rw [h2] at h
        exact ih _ _ _ _ (keysOK_addPair hf el1 el2) (keysOK_addPair hr el2 el1)
          (pairInv_addPair hf hr hinv el1 el2) h

lemma buildPairs_mem_fn {uToI : String → Option Nat} :
    ∀ (L : List (String × String)) (f r f' r' : NatListMap),
      keysOK f → keysOK r →
      buildPairs uToI L f r = Except.ok (f', r') →
      (∀ i j, j ∈ f'.fn i ↔
        (∃ so ∈ L, uToI so.1 = some i ∧ uToI so.2 = some j) ∨ j ∈ f.fn i) ∧
      (∀ i j, i ∈ r'.fn j ↔
        (∃ so ∈ L, uToI so.1 = some i ∧ uToI so.2 = some j) ∨ i ∈ r.fn j) := by
  intro L
  induction L with
  | nil =>
    intro f r f' r' hf hr h
    rw [buildPairs] at h
    cases h
    constructor <;> intro i j <;> simp
  | cons so rest ih =>
    intro f r f' r' hf hr h
    obtain ⟨s, o⟩ := so
    rw [buildPairs] at h
    rcases h1 : uToI s with _ | el1
    · rw [h1] at h; cases h
    · rw [h1] at h
      rcases h2 : uToI o with _ | el2
      · rw [h2] at h; cases h
      · rw [h2] at h
        obtain ⟨ihf, ihr⟩ := ih _ _ _ _ (keysOK_addPair hf el1 el2)
          (keysOK_addPair hr el2 el1) h
        constructor
        · intro i j
          rw [ihf i j, mem_fn_addPair hf]
          constructor
          · rintro (⟨so2, hso2, hu1, hu2⟩ | (⟨rfl, rfl⟩ | hbase))
            · exact Or.inl ⟨so2, List.mem_cons_of_mem _ hso2, hu1, hu2⟩
            · exact Or.inl ⟨(s, o), List.mem_cons_self _ _, h1, h2⟩
            · exact Or.inr hbase
          · rintro (⟨so2, hso2, hu1, hu2⟩ | hbase)
            · rcases List.mem_cons.mp hso2 with rfl | hso3
              · rw [h1] at hu1; rw [h2] at hu2
                cases hu1; cases hu2
                exact Or.inr (Or.inl ⟨rfl, rfl⟩)
              · exact Or.inl ⟨so2, hso3, hu1, hu2⟩
            · exact Or.inr (Or.inr hbase)
        · intro i j
          rw [ihr i j, mem_fn_addPair hr]
          constructor
          · rintro (⟨so2, hso2, hu1, hu2⟩ | (⟨rfl, rfl⟩ | hbase))
            · exact Or.inl ⟨so2, List.mem_cons_of_mem _ hso2, hu1, hu2⟩
            · exact Or.inl ⟨(s, o), List.mem_cons_self _ _, h1, h2⟩
            · exact Or.inr hbase
          · rintro (⟨so2, hso2, hu1, hu2⟩ | hbase)
            · rcases List.mem_cons.mp hso2 with rfl | hso3
              · rw [h1] at hu1; rw [h2] at hu2
                cases hu1; cases hu2
                exact Or.inr (Or.inl ⟨rfl, rfl⟩)
              · exact Or.inl ⟨so2, hso3, hu1, hu2⟩
            · exact Or.inr (Or.inr hbase)

lemma buildPairs_mem_keys {uToI : String → Option Nat} :
    ∀ (L : List (String × String)) (f r f' r' : NatListMap),
      buildPairs uToI L f r = Except.ok (f', r') →
      (∀ i, i ∈ f'.keys ↔
        (∃ so ∈ L, uToI so.1 = some i ∧ ∃ j, uToI so.2 = some j) ∨ i ∈ f.keys) ∧
      (∀ j, j ∈ r'.keys ↔
        (∃ so ∈ L, uToI so.2 = some j ∧ ∃ i, uToI so.1 = some i) ∨ j ∈ r.keys) := by
  intro L
  induction L with
  | nil =>
    intro f r f' r' h
    rw [buildPairs] at h
    cases h
    constructor <;> intro i <;> simp
  | cons so rest ih =>
    intro f r f' r' h
    obtain ⟨s, o⟩ := so
    rw [buildPairs] at h
    rcases h1 : uToI s with _ | el1
    · rw [h1] at h; cases h
    · rw [h1] at h
      rcases h2 : uToI o with _ | el2
      · rw [h2] at h; cases h
      · rw [h2] at h
        obtain ⟨ihf, ihr⟩ := ih _ _ _ _ h
        constructor
        · intro i
          rw [ihf i, mem_keys_addPair]
          constructor
          · rintro (⟨so2, hso2, hu1, hu2⟩ | (hbase | rfl))
            · exact Or.inl ⟨so2, List.mem_cons_of_mem _ hso2, hu1, hu2⟩
            · exact Or.inr hbase
            · exact Or.inl ⟨(s, o), List.mem_cons_self _ _, h1, el2, h2⟩
          · rintro (⟨so2, hso2, hu1, hu2⟩ | hbase)
            · rcases List.mem_cons.mp hso2 with rfl | hso3
              · rw [h1] at hu1; cases hu1
                exact Or.inr (Or.inr rfl)
              · exact Or.inl ⟨so2, hso3, hu1, hu2⟩
            · exact Or.inr (Or.inl hbase)
        · intro j
          rw [ihr j, mem_keys_addPair]
          constructor
          · rintro (⟨so2, hso2, hu1, hu2⟩ | (hbase | rfl))
            · exact Or.inl ⟨so2, List.mem_cons_of_mem _ hso2, hu1, hu2⟩
            · exact Or.inr hbase
            · exact Or.inl ⟨(s, o), List.mem_cons_self _ _, h2, el1, h1⟩
          · rintro (⟨so2, hso2, hu1, hu2⟩ | hbase)
            · rcases List.mem_cons.mp hso2 with rfl | hso3
              · rw [h2] at hu1; cases hu1
                exact Or.inr (Or.inr rfl)
              · exact Or.inl ⟨so2, hso3, hu1, hu2⟩
            · exact Or.inr (Or.inl hbase)

lemma buildBinaryMembers_not_mem {g : List Triple} {uToI : String → Option Nat} :
    ∀ (preds : List String) (bm rbm bm' rbm' : String → NatListMap) (p : String),
      p ∉ preds →
      buildBinaryMembers g uToI preds bm rbm = Except.ok (bm', rbm') →
      bm' p = bm p ∧ rbm' p = rbm p := by
  intro preds
  induction preds with
  | nil =>
    intro bm rbm bm' rbm' p _ h
    rw [buildBinaryMembers] at h
    cases h
    exact ⟨rfl, rfl⟩
  | cons q rest ih =>
    intro bm rbm bm' rbm' p hp h
    rw [buildBinaryMembers] at h
    rcases hbp : buildPairs uToI (subjectObjectsP g q) (bm q) (rbm q) with e | fr
    · rw [hbp] at h; cases h
    · rw [hbp] at h
      obtain ⟨f0, r0⟩ := fr
      have hpq : p ≠ q := fun hc => hp (hc ▸ List.mem_cons_self q rest)
      have hrest : p ∉ rest := fun hc => hp (List.mem_cons_of_mem q hc)
      obtain ⟨h1, h2⟩ := ih _ _ _ _ p hrest h
      rw [h1, h2]
      simp [hpq]

lemma buildBinaryMembers_at {g : List Triple} {uToI : String → Option Nat} :
    ∀ (preds : List String) (bm rbm bm' rbm' : String → NatListMap),
      preds.Nodup →
      buildBinaryMembers g uToI preds bm rbm = Except.ok (bm', rbm') →
      ∀ p ∈ preds, ∃ f0 r0,
        buildPairs uToI (subjectObjectsP g p) (bm p) (rbm p) = Except.ok (f0, r0) ∧
        bm' p = f0 ∧ rbm' p = r0 := by
  intro preds
  induction preds with
  | nil => intro bm rbm bm' rbm' _ _ p hp; cases hp
  | cons q rest ih =>
    intro bm rbm bm' rbm' hnd h p hp
    rw [buildBinaryMembers] at h
    rcases hbp : buildPairs uToI (subjectObjectsP g q) (bm q) (rbm q) with e | fr
    · rw [hbp] at h; cases h
    · rw [hbp] at h
      obtain ⟨f0, r0⟩ := fr
      rcases List.mem_cons.mp hp with rfl | hp2
      · have hq : p ∉ rest := (List.nodup_cons.mp hnd).1
        obtain ⟨h1, h2⟩ := buildBinaryMembers_not_mem rest _ _ _ _ p hq h
        refine ⟨f0, r0, hbp, ?_, ?_⟩
        · rw [h1]; simp
        · rw [h2]; simp
      · have hpq : p ≠ q := fun hc =>
          (List.nodup_cons.mp hnd).1 (hc ▸ hp2)
        obtain ⟨f1, r1, hbp1, h1, h2⟩ := ih _ _ _ _ (List.nodup_cons.mp hnd).2 h p hp2
        refine ⟨f1, r1, ?_, h1, h2⟩
        simpa [hpq] using hbp1

lemma uriToIdx_lt : ∀ (l : List String) (u : String) (i : Nat),
    uriToIdx l u = some i → i < l.length := by
  intro l
  induction l with
  | nil => intro u i h; cases h
  | cons v rest ih =>
    intro u i h
    rw [uriToIdx] at h
    by_cases hv : u = v
    · rw [if_pos hv] at h
      cases h
      simp
    · rw [if_neg hv] at h
      rcases h2 : uriToIdx rest u with _ | n
      · rw [h2] at h; cases h
      · rw [h2] at h
        cases h
        have := ih u n h2
        simp only [List.length_cons]
        omega

lemma loadExamples_length {g : List Triple} :
    ∀ (l : List (Nat × String)) (exs : List Example),
      loadExamples g l = Except.ok exs → exs.length = l.length := by
  intro l
  induction l with
  | nil => intro exs h; rw [loadExamples] at h; cases h; rfl
  | cons hd tl ih =>
    intro exs h
    obtain ⟨i, uri⟩ := hd
    rw [loadExamples] at h
    rcases hll : loadLinks g (objectsSP g uri hedwigAnnotatedWith) [] [] with e | aw
    · rw [hll] at h; cases h
    · rw [hll] at h
      rcases hsc : loadScore g uri with e | sc
      · rw [hsc] at h; cases h
      · rw [hsc] at h
        rcases hre : loadExamples g tl with e | exs2
        · rw [hre] at h; cases h
        · rw [hre] at h
          cases h
          simp [ih exs2 hre]

/-! ## Unpacking a successful construction -/

lemma buildKB_ok_elim {fuel : Nat} {g0 : List Triple} {uns : List String}
    {ial : Bool} {kb : KB} (h : buildKB fuel g0 uns ial = Except.ok kb) :
    ∃ (examples : List Example) (ex0 : Example) (tl : List Example)
      (stF : TravState) (rr : Finset Nat) (bm rbm : String → NatListMap),
      loadExamples g0.dedup (exampleUris g0.dedup).enum = Except.ok examples ∧
      examples = ex0 :: tl ∧
      closureRun (super_class_of (edgesWithRoot (hierarchyEdges g0.dedup uns ial)))
          fuel dummy_root 0
          ⟨initClosures (edgesWithRoot (hierarchyEdges g0.dedup uns ial)),
            initMembers g0.dedup ial examples (fun _ => ∅), fun _ => ∅⟩
        = some (stF, rr) ∧
      buildBinaryMembers g0.dedup (uriToIdx (exampleUris g0.dedup))
          (binary_predicatesOf g0.dedup uns)
          (fun _ => emptyNLM) (fun _ => emptyNLM) = Except.ok (bm, rbm) ∧
      kb = assembleKB examples (exampleUris g0.dedup)
          (binary_predicatesOf g0.dedup uns) ex0.target_type
          (edgesWithRoot (hierarchyEdges g0.dedup uns ial)) stF bm rbm := by
  rw [buildKB] at h
  split at h
  · cases h
  · cases h
  · rename_i ex0 tl hle
    split at h
    · cases h
    · rename_i str stF rr hrun
      split at h
      · cases h
      · rename_i fr bm rbm hbb
        cases h
        exact ⟨ex0 :: tl, ex0, tl, stF, rr, bm, rbm, hle, rfl, hrun, hbb, rfl⟩

lemma buildPairs_ok_maps {uToI : String → Option Nat} :
    ∀ (L : List (String × String)) (f r : NatListMap)
      (out : NatListMap × NatListMap),
      buildPairs uToI L f r = Except.ok out →
      ∀ so ∈ L, (∃ i, uToI so.1 = some i) ∧ (∃ j, uToI so.2 = some j) := by
  intro L
  induction L with
  | nil => intro f r out _ so hso; cases hso
  | cons hd rest ih =>
    intro f r out h so hso
    obtain ⟨s, o⟩ := hd
    rw [buildPairs] at h
    rcases h1 : uToI s with _ | el1
    · rw [h1] at h; cases h
    · rw [h1] at h
      rcases h2 : uToI o with _ | el2
      · rw [h2] at h; cases h
      · rw [h2] at h
        rcases List.mem_cons.mp hso with rfl | hso2
        · exact ⟨⟨el1, h1⟩, ⟨el2, h2⟩⟩
        · exact ih _ _ _ h so hso2

lemma buildBinaryMembers_inv {g : List Triple} {uToI : String → Option Nat} :
    ∀ (preds : List String) (bm0 rbm0 bm rbm : String → NatListMap),
      (∀ p, keysOK (bm0 p) ∧ keysOK (rbm0 p) ∧ pairInv (bm0 p) (rbm0 p)) →
      buildBinaryMembers g uToI preds bm0 rbm0 = Except.ok (bm, rbm) →
      ∀ p, pairInv (bm p) (rbm p) := by
  intro preds
  induction preds with
  | nil =>
    intro bm0 rbm0 bm rbm hbase h
    rw [buildBinaryMembers] at h
    cases h
    exact fun p => (hbase p).2.2
  | cons q rest ih =>
    intro bm0 rbm0 bm rbm hbase h
    rw [buildBinaryMembers] at h
    rcases hbp : buildPairs uToI (subjectObjectsP g q) (bm0 q) (rbm0 q) with e | fr
    · rw [hbp] at h; cases h
    · rw [hbp] at h
      obtain ⟨f0, r0⟩ := fr
      obtain ⟨hf0, hr0, hinv0⟩ := buildPairs_inv _ _ _ _ _
        (hbase q).1 (hbase q).2.1 (hbase q).2.2 hbp
      refine ih _ _ _ _ ?_ h
      intro p
      by_cases hpq : p = q
      · subst hpq; simp only [if_pos rfl]; exact ⟨hf0, hr0, hinv0⟩
      · simp only [if_neg hpq]; exact hbase p

/-- C3: after construction, the forward and reverse adjacency maps of every
binary predicate are exact inverses (kb.py lines 174-191). -/
theorem c3_forward_reverse_inverse {fuel : Nat} {g0 : List Triple}
    {uns : List String} {ial : Bool} {kb : KB}
    (h : buildKB fuel g0 uns ial = Except.ok kb) (p : String) (i j : Nat) :
    j ∈ (kb.binary_members p).fn i ↔ i ∈ (kb.reverse_binary_members p).fn j := by
  obtain ⟨examples, ex0, tl, stF, rr, bm, rbm, hle, hex, hrun, hbb, hkb⟩ :=
    buildKB_ok_elim h
  subst hkb
  show j ∈ (bm p).fn i ↔ i ∈ (rbm p).fn j
  exact buildBinaryMembers_inv _ _ _ _ _
    (fun _ => ⟨keysOK_empty, keysOK_empty, fun a b => by
      constructor <;> intro hx <;> exact absurd hx (List.not_mem_nil _)⟩)
    hbb p i j

/-- Witness for C3: in the `gWbin` fixture, pair (0,1) is recorded
forwards and backwards, and the equivalence is the one the theorem
provides. -/
theorem c3_forward_reverse_inverse_witness :
    (1 ∈ (kbWbin.binary_members "http://ex/linkedTo").fn 0 ↔
        0 ∈ (kbWbin.reverse_binary_members "http://ex/linkedTo").fn 1) ∧
      1 ∈ (kbWbin.binary_members "http://ex/linkedTo").fn 0 :=
  ⟨@c3_forward_reverse_inverse 64 gWbin ["http://ex/"] true kbWbin
      (by rfl) "http://ex/linkedTo" 0 1,
    by decide⟩

/-- C6: for a binary predicate of a successfully built knowledge base, bit
`i` of the derived domain bitset is set exactly when example `i` is the
subject of some pair of that predicate, and bit `j` of the range bitset is
set exactly when example `j` is the object of some pair (kb.py lines
193-199). -/
theorem c6_binary_domain_range_bitsets {fuel : Nat} {g0 : List Triple}
    {uns : List String} {ial : Bool} {kb : KB}
    (h : buildKB fuel g0 uns ial = Except.ok kb) (p : String)
    (hp : p ∈ kb.binary_predicates) :
    (∀ i, (kb.binary_domains p).1.getD i false = true ↔
        ∃ so ∈ subjectObjectsP g0.dedup p,
          uriToIdx kb.examples_uris so.1 = some i) ∧
      (∀ j, (kb.binary_domains p).2.getD j false = true ↔
        ∃ so ∈ subjectObjectsP g0.dedup p,
          uriToIdx kb.examples_uris so.2 = some j) := by
  obtain ⟨examples, ex0, tl, stF, rr, bm, rbm, hle, hex, hrun, hbb, hkb⟩ :=
    buildKB_ok_elim h
  subst hkb
  have hp2 : p ∈ binary_predicatesOf g0.dedup uns := hp
  have hnd : (binary_predicatesOf g0.dedup uns).Nodup := List.nodup_dedup _
  obtain ⟨f0, r0, hbp, hbmp, hrbmp⟩ :=
    buildBinaryMembers_at _ _ _ _ _ hnd hbb p hp2
  obtain ⟨hkf, hkr⟩ := buildPairs_mem_keys _ _ _ _ _ hbp
  have hmaps := buildPairs_ok_maps _ _ _ _ hbp
  have hlen : examples.length = (exampleUris g0.dedup).length := by
    rw [loadExamples_length _ examples hle, List.enum_length]
  constructor
  · intro i
    show (indices_to_bits examples.length (bm p).keys).getD i false = true ↔ _
    rw [getD_indices_to_bits, hbmp, hkf i]
    constructor
    · rintro ⟨hor, -⟩
      rcases hor with ⟨so, hso, hu1, -⟩ | hbase
      · exact ⟨so, hso, hu1⟩
      · cases hbase
    · rintro ⟨so, hso, hu1⟩
      refine ⟨Or.inl ⟨so, hso, hu1, (hmaps so hso).2⟩, ?_⟩
      rw [hlen]
      exact uriToIdx_lt _ _ _ hu1
  · intro j
    show (indices_to_bits examples.length (rbm p).keys).getD j false = true ↔ _
    rw [getD_indices_to_bits, hrbmp, hkr j]
    constructor
    · rintro ⟨hor, -⟩
      rcases hor with ⟨so, hso, hu2, -⟩ | hbase
      · exact ⟨so, hso, hu2⟩
      · cases hbase
    · rintro ⟨so, hso, hu2⟩
      refine ⟨Or.inl ⟨so, hso, hu2, (hmaps so hso).1⟩, ?_⟩
      rw [hlen]
      exact uriToIdx_lt _ _ _ hu2

/-- Witness for C6: in the `gWbin` fixture the domain bitset of `linkedTo`
has bit 0 set because of the pair (e0, e1), and its bits read
[true, true, false] while the range bitset reads [false, true, true]. -/
theorem c6_binary_domain_range_bitsets_witness :
    (kbWbin.binary_domains "http://ex/linkedTo").1.getD 0 false = true ∧
      (kbWbin.binary_domains "http://ex/linkedTo").1 = [true, true, false] ∧
      (kbWbin.binary_domains "http://ex/linkedTo").2 = [false, true, true] := by
  refine ⟨?_, by decide, by decide⟩
  have hthm := @c6_binary_domain_range_bitsets 64 gWbin ["http://ex/"] true
    kbWbin (by rfl) "http://ex/linkedTo" (by decide)
  exact (hthm.1 0).mpr ⟨("http://x/e0", "http://x/e1"), by decide, by decide⟩

/-- C10: `get_members` on a label that is neither in the unary predicate
universe nor a binary predicate does not fail: it falls through to the
binary defaultdicts and returns an empty mapping for both `bit` values
(kb.py lines 269-286). -/
theorem c10_get_members_unknown {fuel : Nat} {g0 : List Triple}
    {uns : List String} {ial : Bool} {kb : KB}
    (h : buildKB fuel g0 uns ial = Except.ok kb) (p : String)
    (hp1 : p ∉ kb.predicates) (hp2 : p ∉ kb.binary_predicates) :
    kb.get_members p true = MembersView.binBits (kb.bit_binary_members p) ∧
      (kb.bit_binary_members p).keys = [] ∧
      kb.get_members p false = MembersView.binIds (kb.binary_members p) ∧
      kb.binary_members p = emptyNLM := by
  obtain ⟨examples, ex0, tl, stF, rr, bm, rbm, hle, hex, hrun, hbb, hkb⟩ :=
    buildKB_ok_elim h
  have hbmp : bm p = emptyNLM := by
    refine (buildBinaryMembers_not_mem _ _ _ _ _ p ?_ hbb).1
    intro hc
    exact hp2 (by rw [hkb]; exact hc)
  subst hkb
  refine ⟨?_, ?_, ?_, hbmp⟩
  · rw [KB.get_members, if_neg hp1]
    rfl
  · show (bm p).keys = []
    rw [hbmp]
    rfl
  · rw [KB.get_members, if_neg hp1]
    rfl

/-- Witness for C10: a label absent from the `gWbin` fixture hits the
binary fallback with empty mappings. -/
theorem c10_get_members_unknown_witness :
    kbWbin.get_members "http://nowhere/pred" true =
        MembersView.binBits (kbWbin.bit_binary_members "http://nowhere/pred") ∧
      (kbWbin.bit_binary_members "http://nowhere/pred").keys = [] ∧
      kbWbin.get_members "http://nowhere/pred" false =
        MembersView.binIds (kbWbin.binary_members "http://nowhere/pred") ∧
      kbWbin.binary_members "http://nowhere/pred" = emptyNLM :=
  @c10_get_members_unknown 64 gWbin ["http://ex/"] true kbWbin
    (by rfl) "http://nowhere/pred" (by decide) (by decide)

/-! ## Label distribution -/

lemma distributionOf_apply :
    ∀ (examples : List Example) (d : Score → Nat) (s : Score),
      (examples.foldl
        (fun d2 ex => fun s2 => if s2 = ex.score then d2 s2 + 1 else d2 s2) d) s
        = d s + (examples.map (fun ex => ex.score)).count s := by
  intro examples
  induction examples with
  | nil => intro d s; simp
  | cons ex rest ih =>
    intro d s
    rw [List.foldl_cons, ih, List.map_cons, List.count_cons]
    by_cases hs : s = ex.score
    · have hbe : (ex.score == s) = true := beq_iff_eq.mpr hs.symm
      rw [if_pos hs, hbe, if_pos rfl]
      omega
    · have hbe : ¬((ex.score == s) = true) := by
        simpa using fun hc => hs hc.symm
      rw [if_neg hs, if_neg hbe]
      omega

lemma scoreLabel_eq_some (ex : Example) (v : String) :
    scoreLabel ex = some v ↔ ex.score = Score.labeled v := by
  cases hsc2 : ex.score <;> simp [scoreLabel, hsc2]

lemma distributionOf_count (examples : List Example) (s : Score) :
    distributionOf examples s = (examples.map (fun ex => ex.score)).count s := by
  rw [distributionOf, distributionOf_apply]
  omega

/-- C7: for a label-valued population, the computed distribution assigns to
each label the number of examples carrying it, and the counts over the
distinct labels sum to the population size (kb.py lines 224-227). -/
theorem c7_label_distribution {fuel : Nat} {g0 : List Triple}
    {uns : List String} {ial : Bool} {kb : KB}
    (h : buildKB fuel g0 uns ial = Except.ok kb)
    (htt : kb.target_type = TargetType.labeled)
    (hlab : ∀ ex ∈ kb.examples, ∃ l, ex.score = Score.labeled l) :
    (∀ l, kb.distribution (Score.labeled l) =
        (kb.examples.filter
          (fun ex => decide (ex.score = Score.labeled l))).length) ∧
      ∑ l ∈ (kb.examples.filterMap scoreLabel).toFinset,
        kb.distribution (Score.labeled l) = kb.n_examples := by
  have hdist : kb.distribution = distributionOf kb.examples := by
    obtain ⟨examples, ex0, tl, stF, rr, bm, rbm, hle, hex, hrun, hbb, hkb⟩ :=
      buildKB_ok_elim h
    have htt2 : kb.target_type ≠ TargetType.ranked := by
      rw [htt]; intro hc; cases hc
    rw [hkb] at htt2 ⊢
    have htt3 : ex0.target_type ≠ TargetType.ranked := htt2
    show (if ex0.target_type = TargetType.ranked then (fun _ => 0)
      else distributionOf examples) = distributionOf examples
    rw [if_neg htt3]
  have hpick : ∀ (ex : Example) (v : String),
      scoreLabel ex = some v ↔ ex.score = Score.labeled v :=
    scoreLabel_eq_some
  constructor
  · intro l
    rw [hdist, distributionOf_count, List.count_eq_countP, List.countP_map,
      List.countP_eq_length_filter]
    congr 1
  · have himg : (kb.examples.map (fun ex => ex.score)).toFinset =
        ((kb.examples.filterMap scoreLabel).toFinset).image Score.labeled := by
      ext s
      rw [List.mem_toFinset, Finset.mem_image, List.mem_map]
      constructor
      · rintro ⟨ex, hex, rfl⟩
        obtain ⟨l, hl⟩ := hlab ex hex
        refine ⟨l, ?_, hl.symm⟩
        rw [List.mem_toFinset, List.mem_filterMap]
        exact ⟨ex, hex, (hpick ex l).mpr hl⟩
      · rintro ⟨v, hv, rfl⟩
        rw [List.mem_toFinset, List.mem_filterMap] at hv
        obtain ⟨ex, hex, hpk⟩ := hv
        exact ⟨ex, hex, (hpick ex v).mp hpk⟩
    calc ∑ l ∈ (kb.examples.filterMap scoreLabel).toFinset,
          kb.distribution (Score.labeled l)
        = ∑ l ∈ (kb.examples.filterMap scoreLabel).toFinset,
            (kb.examples.map (fun ex => ex.score)).count (Score.labeled l) :=
          Finset.sum_congr rfl (fun l _ => by rw [hdist, distributionOf_count])
      _ = ∑ s ∈ ((kb.examples.filterMap scoreLabel).toFinset).image Score.labeled,
            (kb.examples.map (fun ex => ex.score)).count s :=
          (@Finset.sum_image Score Nat String
            (fun s => (kb.examples.map (fun ex => ex.score)).count s) _ _
            ((kb.examples.filterMap scoreLabel).toFinset) Score.labeled
            (fun x _ y _ hxy => by simpa using hxy)).symm
      _ = ∑ s ∈ (kb.examples.map (fun ex => ex.score)).toFinset,
            (kb.examples.map (fun ex => ex.score)).count s := by rw [himg]
      _ = (kb.examples.map (fun ex => ex.score)).length := by
          have h2 := Multiset.toFinset_sum_count_eq
            ((kb.examples.map (fun ex => ex.score) : List Score) : Multiset Score)
          simp only [Multiset.coe_count, Multiset.coe_card] at h2
          exact h2
      _ = kb.n_examples := by rw [List.length_map]; rfl

/-- Witness for C7: the `gWbin` fixture is all-labeled with labels
{a: 2, b: 1} summing to 3. -/
theorem c7_label_distribution_witness :
    (kbWbin.distribution (Score.labeled "a") =
        (kbWbin.examples.filter
          (fun ex => decide (ex.score = Score.labeled "a"))).length) ∧
      ∑ l ∈ (kbWbin.examples.filterMap scoreLabel).toFinset,
        kbWbin.distribution (Score.labeled l) = kbWbin.n_examples := by
  have hlab : ∀ ex ∈ kbWbin.examples, ∃ l, ex.score = Score.labeled l := by
    have hsome : ∀ ex ∈ kbWbin.examples, (scoreLabel ex).isSome = true := by
      decide
    intro ex hex
    obtain ⟨v, hv⟩ := Option.isSome_iff_exists.mp (hsome ex hex)
    exact ⟨v, (scoreLabel_eq_some ex v).mp hv⟩
  have hthm := @c7_label_distribution 64 gWbin ["http://ex/"] true kbWbin
    (by rfl) (by decide) hlab
  exact ⟨hthm.1 "a", hthm.2⟩

/-! ## Closure traversal lemmas -/

lemma reach_tail {superOf : String → List String} {a b x : String}
    (h : Reach superOf a b) (hx : x ∈ superOf b) : Reach superOf a x := by
  induction h with
  | refl a => exact Reach.head hx (Reach.refl x)
  | head hb _ ih => exact Reach.head hb (ih hx)

lemma reach_rank {superOf : String → List String} {rank : String → Nat}
    (hr : ∀ a b, b ∈ superOf a → rank b < rank a) {a b : String}
    (h : Reach superOf a b) : rank b ≤ rank a := by
  induction h with
  | refl a => exact le_refl _
  | head hb _ ih => exact le_trans ih (le_of_lt (hr _ _ hb))

lemma subset_closure_update (f : String → Finset String) (child pred x : String) :
    f x ⊆ (fun q => if q = child then f child ∪ f pred else f q) x := by
  by_cases hx : x = child
  · subst hx
    simp
  · simp [hx]

lemma closures_mono (superOf : String → List String) :
    ∀ fuel : Nat,
      (∀ pred lvl st out,
        closureRun superOf fuel pred lvl st = some out →
        ∀ x, st.closures x ⊆ out.1.closures x) ∧
      (∀ pred lvl ch st ms out,
        closureList superOf fuel pred lvl ch st ms = some out →
        ∀ x, st.closures x ⊆ out.1.closures x) := by
  intro fuel
  induction fuel with
  | zero =>
    constructor
    · intro pred lvl st out h
      simp only [closureRun] at h
      cases h
    · intro pred lvl ch st ms out h
      simp only [closureList] at h
      cases h
  | succ n ih =>
    constructor
    · intro pred lvl st out h
      simp only [closureRun] at h
      rcases hsup : superOf pred with _ | ⟨c, cs⟩
      · simp only [hsup] at h
        injection h with h
        subst h
        intro x
        exact subset_rfl
      · simp only [hsup] at h
        split at h
        · cases h
        · rename_i st2 mems hcl
          injection h with h
          subst h
          intro x
          exact ih.2 _ _ _ _ _ _ hcl x
    · intro pred lvl ch st ms out h
      rcases ch with _ | ⟨child, rest⟩
      · simp only [closureList] at h
        injection h with h
        subst h
        intro x
        exact subset_rfl
      · simp only [closureList] at h
        split at h
        · cases h
        · rename_i st3 r hrun
          intro x
          refine (subset_closure_update st.closures child pred x).trans ?_
          exact (ih.1 _ _ _ _ hrun x).trans (ih.2 _ _ _ _ _ _ h x)

lemma closures_chg (superOf : String → List String) :
    ∀ fuel : Nat,
      (∀ pred lvl st out,
        closureRun superOf fuel pred lvl st = some out →
        ∀ x, out.1.closures x ≠ st.closures x →
          ∃ v, Reach superOf pred v ∧ x ∈ superOf v) ∧
      (∀ pred lvl ch st ms out,
        closureList superOf fuel pred lvl ch st ms = some out →
        (∀ c2 ∈ ch, c2 ∈ superOf pred) →
        ∀ x, out.1.closures x ≠ st.closures x →
          ∃ v, (v = pred ∨ ∃ ci ∈ ch, Reach superOf ci v) ∧ x ∈ superOf v) := by
  intro fuel
  induction fuel with
  | zero =>
    constructor
    · intro pred lvl st out h
      simp only [closureRun] at h
      cases h
    · intro pred lvl ch st ms out h
      simp only [closureList] at h
      cases h
  | succ n ih =>
    constructor
    · intro pred lvl st out h
      simp only [closureRun] at h
      rcases hsup : superOf pred with _ | ⟨c, cs⟩
      · simp only [hsup] at h
        injection h with h
        subst h
        intro x hx
        exact absurd rfl hx
      · simp only [hsup] at h
        split at h
        · cases h
        · rename_i st2 mems hcl
          injection h with h
          subst h
          intro x hx
          have hch : ∀ c2 ∈ (c :: cs), c2 ∈ superOf pred := by
            intro c2 hc2
            rw [hsup]
            exact hc2
          obtain ⟨v, hv, hxv⟩ := ih.2 _ _ _ _ _ _ hcl hch x hx
          rcases hv with rfl | ⟨ci, hci, hre⟩
          · exact ⟨v, Reach.refl v, hxv⟩
          · exact ⟨v, Reach.head (hch ci hci) hre, hxv⟩
    · intro pred lvl ch st ms out h hch
      rcases ch with _ | ⟨child, rest⟩
      · simp only [closureList] at h
        injection h with h
        subst h
        intro x hx
        exact absurd rfl hx
      · simp only [closureList] at h
        split at h
        · cases h
        · rename_i st3 r hrun
          intro x hx
          by_cases h3 : out.1.closures x = st3.closures x
          · by_cases h2 : st3.closures x =
                (if x = child then st.closures child ∪ st.closures pred
                 else st.closures x)
            · by_cases hxc : x = child
              · refine ⟨pred, Or.inl rfl, ?_⟩
                rw [hxc]
                exact hch child (List.mem_cons_self child rest)
              · rw [h3, h2, if_neg hxc] at hx
                exact absurd rfl hx
            · obtain ⟨v, hv, hxv⟩ := ih.1 _ _ _ _ hrun x h2
              exact ⟨v, Or.inr ⟨child, List.mem_cons_self child rest, hv⟩, hxv⟩
          · have hch2 : ∀ c2 ∈ rest, c2 ∈ superOf pred := by
              intro c2 hc2
              exact hch c2 (List.mem_cons_of_mem child hc2)
            obtain ⟨v, hv, hxv⟩ := ih.2 _ _ _ _ _ _ h hch2 x h3
            rcases hv with rfl | ⟨ci, hci, hre⟩
            · exact ⟨v, Or.inl rfl, hxv⟩
            · exact ⟨v, Or.inr ⟨ci, List.mem_cons_of_mem child hci, hre⟩, hxv⟩

lemma closureRun_stable {superOf : String → List String} {rank : String → Nat}
    (hr : ∀ a b, b ∈ superOf a → rank b < rank a)
    {fuel : Nat} {pred : String} {lvl : Nat} {st : TravState}
    {out : TravState × Finset Nat}
    (h : closureRun superOf fuel pred lvl st = some out)
    {x : String} (hx : rank pred ≤ rank x) :
    out.1.closures x = st.closures x := by
  by_contra hc
  obtain ⟨v, hv, hxv⟩ := (closures_chg superOf fuel).1 _ _ _ _ h x hc
  have h1 := reach_rank hr hv
  have h2 := hr v x hxv
  omega

lemma closureList_stable {superOf : String → List String} {rank : String → Nat}
    (hr : ∀ a b, b ∈ superOf a → rank b < rank a)
    {fuel : Nat} {pred : String} {lvl : Nat} {ch : List String}
    {st : TravState} {ms : Finset Nat} {out : TravState × Finset Nat}
    (h : closureList superOf fuel pred lvl ch st ms = some out)
    (hch : ∀ c2 ∈ ch, c2 ∈ superOf pred)
    {x : String} (hx : rank pred ≤ rank x) :
    out.1.closures x = st.closures x := by
  by_contra hc
  obtain ⟨v, hv, hxv⟩ := (closures_chg superOf fuel).2 _ _ _ _ _ _ h hch x hc
  have h2 := hr v x hxv
  rcases hv with rfl | ⟨ci, hci, hre⟩
  · omega
  · have h3 := reach_rank hr hre
    have h4 := hr pred ci (hch ci hci)
    omega

lemma closureList_pred_sub {superOf : String → List String} {rank : String → Nat}
    (hr : ∀ a b, b ∈ superOf a → rank b < rank a) :
    ∀ (fuel : Nat) (pred : String) (lvl : Nat) (ch : List String)
      (st : TravState) (ms : Finset Nat) (out : TravState × Finset Nat),
      closureList superOf fuel pred lvl ch st ms = some out →
      (∀ c2 ∈ ch, c2 ∈ superOf pred) →
      ∀ c ∈ ch, st.closures pred ⊆ out.1.closures c := by
  intro fuel
  induction fuel with
  | zero =>
    intro pred lvl ch st ms out h
    simp only [closureList] at h
    cases h
  | succ n ih =>
    intro pred lvl ch st ms out h hch c hc
    rcases ch with _ | ⟨child, rest⟩
    · cases hc
    · simp only [closureList] at h
      split at h
      · cases h
      · rename_i st3 r hrun
        have hlt : rank child < rank pred :=
          hr pred child (hch child (List.mem_cons_self child rest))
        have hne : pred ≠ child := by
          intro heq
          rw [heq] at hlt
          exact lt_irrefl _ hlt
        rcases List.mem_cons.mp hc with hceq | hcrest
        · subst hceq
          have h1 : st.closures pred ⊆
              (fun q => if q = c then st.closures c ∪ st.closures pred
               else st.closures q) c := by
            simp
          have h2 := (closures_mono superOf n).1 _ _ _ _ hrun c
          have h3 := (closures_mono superOf n).2 _ _ _ _ _ _ h c
          exact h1.trans (h2.trans h3)
        · have hstab : st3.closures pred = st.closures pred := by
            have hstep := closureRun_stable hr hrun (le_of_lt hlt)
            rw [hstep]
            simp [hne]
          have hch2 : ∀ c2 ∈ rest, c2 ∈ superOf pred :=
            fun c2 hc2 => hch c2 (List.mem_cons_of_mem child hc2)
          have hres := ih pred lvl rest st3 (ms ∪ r) out h hch2 c hcrest
          rw [hstab] at hres
          exact hres

lemma closures_main {superOf : String → List String} {rank : String → Nat}
    (hr : ∀ a b, b ∈ superOf a → rank b < rank a) :
    ∀ fuel : Nat,
      (∀ pred lvl st out,
        closureRun superOf fuel pred lvl st = some out →
        ∀ q, Reach superOf pred q → ∀ c ∈ superOf q,
          out.1.closures q ⊆ out.1.closures c) ∧
      (∀ pred lvl ch st ms out,
        closureList superOf fuel pred lvl ch st ms = some out →
        (∀ c2 ∈ ch, c2 ∈ superOf pred) →
        ∀ q c, c ∈ superOf q →
          (st.closures q ⊆ st.closures c ∨ ∃ ci ∈ ch, Reach superOf ci q) →
          out.1.closures q ⊆ out.1.closures c) := by
  intro fuel
  induction fuel with
  | zero =>
    constructor
    · intro pred lvl st out h
      simp only [closureRun] at h
      cases h
    · intro pred lvl ch st ms out h
      simp only [closureList] at h
      cases h
  | succ n ih =>
    constructor
    · intro pred lvl st out h q hq c hc
      simp only [closureRun] at h
      rcases hsup : superOf pred with _ | ⟨c0, cs⟩
      · cases hq with
        | refl => rw [hsup] at hc; cases hc
        | head hb hre => rw [hsup] at hb; cases hb
      · simp only [hsup] at h
        split at h
        · cases h
        · rename_i st2 mems hcl
          injection h with h
          subst h
          show st2.closures q ⊆ st2.closures c
          have hch : ∀ c2 ∈ (c0 :: cs), c2 ∈ superOf pred := by
            intro c2 hc2
            rw [hsup]
            exact hc2
          cases hq with
          | refl =>
            rw [hsup] at hc
            have hsub := closureList_pred_sub hr n pred lvl (c0 :: cs)
              _ _ _ hcl hch c hc
            have hstab := closureList_stable hr hcl hch (le_refl (rank pred))
            rw [hstab]
            exact hsub
          | head hb hre =>
            rename_i b
            rw [hsup] at hb
            exact ih.2 _ _ _ _ _ _ hcl hch q c hc (Or.inr ⟨b, hb, hre⟩)
    · intro pred lvl ch st ms out h hch q c hc hdisj
      rcases ch with _ | ⟨child, rest⟩
      · simp only [closureList] at h
        injection h with h
        subst h
        rcases hdisj with hincl | ⟨ci, hci, -⟩
        · exact hincl
        · cases hci
      · simp only [closureList] at h
        split at h
        · cases h
        · rename_i st3 r hrun
          have hch2 : ∀ c2 ∈ rest, c2 ∈ superOf pred :=
            fun c2 hc2 => hch c2 (List.mem_cons_of_mem child hc2)
          by_cases hreach : Reach superOf child q
          · have h1 := ih.1 _ _ _ _ hrun q hreach c hc
            exact ih.2 _ _ _ _ _ _ h hch2 q c hc (Or.inl h1)
          · by_cases hrest2 : ∃ ci ∈ rest, Reach superOf ci q
            · exact ih.2 _ _ _ _ _ _ h hch2 q c hc (Or.inr hrest2)
            · rcases hdisj with hincl | ⟨ci, hci, hre⟩
              · have hqc : q ≠ child := by
                  intro heq
                  apply hreach
                  rw [heq]
                  exact Reach.refl child
                have hq3 : st3.closures q = st.closures q := by
                  by_contra hc2
                  have hne2 : st3.closures q ≠
                      (⟨fun q2 => if q2 = child
                          then st.closures child ∪ st.closures pred
                          else st.closures q2,
                        st.members, st.levels⟩ : TravState).closures q := by
                    intro heq
                    apply hc2
                    rw [heq]
                    simp [hqc]
                  obtain ⟨v, hv, hxv⟩ :=
                    (closures_chg superOf n).1 _ _ _ _ hrun q hne2
                  exact hreach (reach_tail hv hxv)
                have hcmono : st.closures c ⊆ st3.closures c :=
                  (subset_closure_update st.closures child pred c).trans
                    ((closures_mono superOf n).1 _ _ _ _ hrun c)
                refine ih.2 _ _ _ _ _ _ h hch2 q c hc (Or.inl ?_)
                rw [hq3]
                exact hincl.trans hcmono
              · rcases List.mem_cons.mp hci with hceq | hcirest
                · rw [hceq] at hre
                  exact absurd hre hreach
                · exact absurd ⟨ci, hcirest, hre⟩ hrest2

lemma closures_upper (superOf : String → List String) :
    ∀ fuel : Nat,
      (∀ pred lvl st out,
        closureRun superOf fuel pred lvl st = some out →
        ∀ x e, e ∈ out.1.closures x →
          e ∈ st.closures x ∨ ∃ qq, x ∈ superOf qq ∧ e ∈ out.1.closures qq) ∧
      (∀ pred lvl ch st ms out,
        closureList superOf fuel pred lvl ch st ms = some out →
        (∀ c2 ∈ ch, c2 ∈ superOf pred) →
        ∀ x e, e ∈ out.1.closures x →
          e ∈ st.closures x ∨ ∃ qq, x ∈ superOf qq ∧ e ∈ out.1.closures qq) := by
  intro fuel
  induction fuel with
  | zero =>
    constructor
    · intro pred lvl st out h
      simp only [closureRun] at h
      cases h
    · intro pred lvl ch st ms out h
      simp only [closureList] at h
      cases h
  | succ n ih =>
    constructor
    · intro pred lvl st out h x e he
      simp only [closureRun] at h
      rcases hsup : superOf pred with _ | ⟨c0, cs⟩
      · simp only [hsup] at h
        injection h with h
        subst h
        exact Or.inl he
      · simp only [hsup] at h
        split at h
        · cases h
        · rename_i st2 mems hcl
          injection h with h
          subst h
          have hch : ∀ c2 ∈ (c0 :: cs), c2 ∈ superOf pred := by
            intro c2 hc2
            rw [hsup]
            exact hc2
          exact ih.2 _ _ _ _ _ _ hcl hch x e he
    · intro pred lvl ch st ms out h hch x e he
      rcases ch with _ | ⟨child, rest⟩
      · simp only [closureList] at h
        injection h with h
        subst h
        exact Or.inl he
      · simp only [closureList] at h
        split at h
        · cases h
        · rename_i st3 r hrun
          have hch2 : ∀ c2 ∈ rest, c2 ∈ superOf pred :=
            fun c2 hc2 => hch c2 (List.mem_cons_of_mem child hc2)
          rcases ih.2 _ _ _ _ _ _ h hch2 x e he with h1 | ⟨qq, hqq, hqe⟩
          · rcases ih.1 _ _ _ _ hrun x e h1 with h2 | ⟨qq, hqq, hqe⟩
            · by_cases hxc : x = child
              · have h2b : e ∈ st.closures child ∪ st.closures pred := by
                  rw [hxc] at h2
                  simpa using h2
                rcases Finset.mem_union.mp h2b with hl | hrr
                · refine Or.inl ?_
                  rw [hxc]
                  exact hl
                · refine Or.inr ⟨pred, ?_, ?_⟩
                  · rw [hxc]
                    exact hch child (List.mem_cons_self child rest)
                  · have hmono : st.closures pred ⊆ out.1.closures pred :=
                      (subset_closure_update st.closures child pred pred).trans
                        (((closures_mono superOf n).1 _ _ _ _ hrun pred).trans
                          ((closures_mono superOf n).2 _ _ _ _ _ _ h pred))
                    exact hmono hrr
              · refine Or.inl ?_
                simpa [hxc] using h2
            · exact Or.inr ⟨qq, hqq,
                (closures_mono superOf n).2 _ _ _ _ _ _ h qq hqe⟩
          · exact Or.inr ⟨qq, hqq, hqe⟩

/-! ## Member propagation: mirror of the traversal's return values -/

lemma leafMems_congr (superOf : String → List String) :
    ∀ fuel : Nat,
      (∀ (m1 m2 : String → Finset Nat) (pred : String),
        (∀ x, superOf x = [] → m1 x = m2 x) →
        leafMems superOf m1 fuel pred = leafMems superOf m2 fuel pred) ∧
      (∀ (m1 m2 : String → Finset Nat) (ch : List String) (acc : Finset Nat),
        (∀ x, superOf x = [] → m1 x = m2 x) →
        leafMemsList superOf m1 fuel ch acc =
          leafMemsList superOf m2 fuel ch acc) := by
  intro fuel
  induction fuel with
  | zero =>
    constructor
    · intro m1 m2 pred hag
      simp only [leafMems]
    · intro m1 m2 ch acc hag
      simp only [leafMemsList]
  | succ n ih =>
    constructor
    · intro m1 m2 pred hag
      simp only [leafMems]
      rcases hsup : superOf pred with _ | ⟨c, cs⟩
      · rw [hag pred hsup]
      · exact ih.2 m1 m2 (c :: cs) ∅ hag
    · intro m1 m2 ch acc hag
      rcases ch with _ | ⟨child, rest⟩
      · simp only [leafMemsList]
      · simp only [leafMemsList]
        rw [ih.1 m1 m2 child hag]
        rcases h2 : leafMems superOf m2 n child with _ | r
        · rfl
        · exact ih.2 m1 m2 rest (acc ∪ r) hag

lemma members_mirror (superOf : String → List String) :
    ∀ fuel : Nat,
      (∀ pred lvl st out,
        closureRun superOf fuel pred lvl st = some out →
        (∀ x, superOf x = [] → out.1.members x = st.members x) ∧
        leafMems superOf st.members fuel pred = some out.2 ∧
        out.1.members pred = out.2) ∧
      (∀ pred lvl ch st ms out,
        closureList superOf fuel pred lvl ch st ms = some out →
        (∀ x, superOf x = [] → out.1.members x = st.members x) ∧
        leafMemsList superOf st.members fuel ch ms = some out.2) := by
  intro fuel
  induction fuel with
  | zero =>
    constructor
    · intro pred lvl st out h
      simp only [closureRun] at h
      cases h
    · intro pred lvl ch st ms out h
      simp only [closureList] at h
      cases h
  | succ n ih =>
    constructor
    · intro pred lvl st out h
      simp only [closureRun] at h
      rcases hsup : superOf pred with _ | ⟨c0, cs⟩
      · simp only [hsup] at h
        injection h with h
        subst h
        refine ⟨fun x _ => rfl, ?_, rfl⟩
        simp only [leafMems, hsup]
      · simp only [hsup] at h
        split at h
        · cases h
        · rename_i st2 mems hcl
          injection h with h
          subst h
          obtain ⟨hleaf, hlist⟩ := ih.2 _ _ _ _ _ _ hcl
          refine ⟨?_, ?_, ?_⟩
          · intro x hx
            have hxp : x ≠ pred := by
              intro heq
              rw [heq, hsup] at hx
              cases hx
            show (if x = pred then mems else st2.members x) = st.members x
            rw [if_neg hxp]
            exact hleaf x hx
          · simp only [leafMems, hsup]
            exact hlist
          · show (if pred = pred then mems else st2.members pred) = mems
            rw [if_pos rfl]
    · intro pred lvl ch st ms out h
      rcases ch with _ | ⟨child, rest⟩
      · simp only [closureList] at h
        injection h with h
        subst h
        exact ⟨fun x _ => rfl, by simp only [leafMemsList]⟩
      · simp only [closureList] at h
        split at h
        · cases h
        · rename_i st3 r hrun
          obtain ⟨hleafA, hmirA, -⟩ := ih.1 _ _ _ _ hrun
          obtain ⟨hleafB, hmirB⟩ := ih.2 _ _ _ _ _ _ h
          refine ⟨?_, ?_⟩
          · intro x hx
            rw [hleafB x hx]
            exact hleafA x hx
          · simp only [leafMemsList]
            rw [hmirA]
            have hag : ∀ x, superOf x = [] → st3.members x = st.members x :=
              fun x hx => hleafA x hx
            show leafMemsList superOf st.members n rest (ms ∪ r) = some out.2
            rw [← (leafMems_congr superOf n).2 st3.members st.members rest
              (ms ∪ r) hag]
            exact hmirB

lemma leafMems_reach (superOf : String → List String) :
    ∀ fuel : Nat,
      (∀ (m : String → Finset Nat) (pred : String) (r : Finset Nat),
        leafMems superOf m fuel pred = some r →
        ∀ i, i ∈ r ↔
          ∃ l, Reach superOf pred l ∧ superOf l = [] ∧ i ∈ m l) ∧
      (∀ (m : String → Finset Nat) (ch : List String) (acc r : Finset Nat),
        leafMemsList superOf m fuel ch acc = some r →
        ∀ i, i ∈ r ↔
          i ∈ acc ∨ ∃ ci ∈ ch, ∃ l,
            Reach superOf ci l ∧ superOf l = [] ∧ i ∈ m l) := by
  intro fuel
  induction fuel with
  | zero =>
    constructor
    · intro m pred r h
      simp only [leafMems] at h
      cases h
    · intro m ch acc r h
      simp only [leafMemsList] at h
      cases h
  | succ n ih =>
    constructor
    · intro m pred r h
      simp only [leafMems] at h
      rcases hsup : superOf pred with _ | ⟨c0, cs⟩
      · simp only [hsup] at h
        injection h with h
        subst h
        intro i
        constructor
        · intro hi
          exact ⟨pred, Reach.refl pred, hsup, hi⟩
        · rintro ⟨l, hre, hleaf, hil⟩
          cases hre with
          | refl => exact hil
          | head hb hre2 => rw [hsup] at hb; cases hb
      · simp only [hsup] at h
        have hlist := ih.2 m (c0 :: cs) ∅ r h
        intro i
        rw [hlist i]
        constructor
        · rintro (hi | ⟨ci, hci, l, hre, hleaf, hil⟩)
          · cases hi
          · refine ⟨l, ?_, hleaf, hil⟩
            exact Reach.head (by rw [hsup]; exact hci) hre
        · rintro ⟨l, hre, hleaf, hil⟩
          cases hre with
          | refl =>
            rw [hleaf] at hsup
            cases hsup
          | head hb hre2 =>
            rename_i b
            rw [hsup] at hb
            exact Or.inr ⟨b, hb, l, hre2, hleaf, hil⟩
    · intro m ch acc r h
      rcases ch with _ | ⟨child, rest⟩
      · simp only [leafMemsList] at h
        injection h with h
        subst h
        intro i
        constructor
        · exact fun hi => Or.inl hi
        · rintro (hi | ⟨ci, hci, -⟩)
          · exact hi
          · cases hci
      · simp only [leafMemsList] at h
        rcases hlm : leafMems superOf m n child with _ | r0
        · rw [hlm] at h
          cases h
        · rw [hlm] at h
          have hhead := ih.1 m child r0 hlm
          have hrest := ih.2 m rest (acc ∪ r0) r h
          intro i
          rw [hrest i]
          constructor
          · rintro (hacc | ⟨ci, hci, l, hre, hleaf, hil⟩)
            · rcases Finset.mem_union.mp hacc with ha | hr0
              · exact Or.inl ha
              · obtain ⟨l, hre, hleaf, hil⟩ := (hhead i).mp hr0
                exact Or.inr ⟨child, List.mem_cons_self child rest, l, hre,
                  hleaf, hil⟩
            · exact Or.inr ⟨ci, List.mem_cons_of_mem child hci, l, hre,
                hleaf, hil⟩
          · rintro (hacc | ⟨ci, hci, l, hre, hleaf, hil⟩)
            · exact Or.inl (Finset.mem_union_left _ hacc)
            · rcases List.mem_cons.mp hci with hceq | hcirest
              · refine Or.inl (Finset.mem_union_right _ ?_)
                refine (hhead i).mpr ⟨l, ?_, hleaf, hil⟩
                rw [← hceq]
                exact hre
              · exact Or.inr ⟨ci, hcirest, l, hre, hleaf, hil⟩

/-! ## Hierarchy edge algebra -/

lemma mem_sub_class_of {E : List (String × String)} {p q : String} :
    q ∈ sub_class_of E p ↔ (p, q) ∈ E := by
  simp only [sub_class_of, List.mem_map, List.mem_filter, decide_eq_true_eq]
  constructor
  · rintro ⟨⟨a, b⟩, ⟨he, h1⟩, h2⟩
    simp only at h1 h2
    rw [← h1, ← h2]
    exact he
  · intro he
    exact ⟨(p, q), ⟨he, rfl⟩, rfl⟩

lemma mem_super_class_of {E : List (String × String)} {p q : String} :
    q ∈ super_class_of E p ↔ (q, p) ∈ E := by
  simp only [super_class_of, List.mem_map, List.mem_filter, decide_eq_true_eq]
  constructor
  · rintro ⟨⟨a, b⟩, ⟨he, h1⟩, h2⟩
    simp only at h1 h2
    rw [← h1, ← h2]
    exact he
  · intro he
    exact ⟨(q, p), ⟨he, rfl⟩, rfl⟩

lemma mem_superKeys {E : List (String × String)} {p : String} :
    p ∈ superKeys E ↔ ∃ e ∈ E, e.2 = p := by
  simp [superKeys, List.mem_dedup, List.mem_map]

lemma superKeys_iff_children {E : List (String × String)} {p : String} :
    p ∈ superKeys E ↔ super_class_of E p ≠ [] := by
  rw [mem_superKeys]
  constructor
  · rintro ⟨⟨a, b⟩, he, h2⟩
    simp only at h2
    have ha : a ∈ super_class_of E p := by
      rw [← h2]
      exact mem_super_class_of.mpr he
    exact List.ne_nil_of_mem ha
  · intro hne
    obtain ⟨x, hx⟩ := List.exists_mem_of_ne_nil _ hne
    exact ⟨(x, p), mem_super_class_of.mp hx, rfl⟩

lemma mem_predicatesOf {E : List (String × String)} {p : String} :
    p ∈ predicatesOf E ↔
      p = dummy_root ∨ (∃ e ∈ E, e.1 = p) ∨ ∃ e ∈ E, e.2 = p := by
  simp [predicatesOf, List.mem_toFinset, List.mem_append, List.mem_map]

lemma sub_class_of_append (A B : List (String × String)) (p : String) :
    sub_class_of (A ++ B) p = sub_class_of A p ++ sub_class_of B p := by
  simp [sub_class_of, List.filter_append]

lemma dummy_root_not_superKey {E0 : List (String × String)}
    (hroot : ∀ e ∈ E0, e.1 ≠ dummy_root ∧ e.2 ≠ dummy_root) :
    dummy_root ∉ superKeys E0 := by
  rw [mem_superKeys]
  rintro ⟨e, he, h2⟩
  exact (hroot e he).2 h2

lemma sub_class_of_root_nil {E0 : List (String × String)}
    (hroot : ∀ e ∈ E0, e.1 ≠ dummy_root ∧ e.2 ≠ dummy_root) :
    sub_class_of (edgesWithRoot E0) dummy_root = [] := by
  rw [edgesWithRoot, sub_class_of_append]
  have h1 : sub_class_of E0 dummy_root = [] := by
    rcases h : sub_class_of E0 dummy_root with _ | ⟨x, xs⟩
    · rfl
    · have hx : x ∈ sub_class_of E0 dummy_root := by
        rw [h]
        exact List.mem_cons_self x xs
      have := mem_sub_class_of.mp hx
      exact absurd rfl ((hroot _ this).1)
  have h2 : sub_class_of ((rootsOf E0).map (fun r => (r, dummy_root)))
      dummy_root = [] := by
    rcases h : sub_class_of ((rootsOf E0).map (fun r => (r, dummy_root)))
        dummy_root with _ | ⟨x, xs⟩
    · rfl
    · have hx : x ∈ sub_class_of ((rootsOf E0).map (fun r => (r, dummy_root)))
          dummy_root := by
        rw [h]
        exact List.mem_cons_self x xs
      have hmem := mem_sub_class_of.mp hx
      obtain ⟨rt, hrt, hre⟩ := List.mem_map.mp hmem
      have hrt1 : rt = dummy_root := congrArg Prod.fst hre
      have hrtk : rt ∈ superKeys E0 := by
        have := List.mem_filter.mp hrt
        exact this.1
      rw [hrt1] at hrtk
      exact absurd hrtk (dummy_root_not_superKey hroot)
  rw [h1, h2]
  rfl

lemma le_foldr_max : ∀ (l : List Nat) (x : Nat), x ∈ l → x ≤ l.foldr max 0 := by
  intro l
  induction l with
  | nil => intro x hx; cases hx
  | cons y ys ih =>
    intro x hx
    rcases List.mem_cons.mp hx with rfl | hx2
    · exact le_max_left _ _
    · exact le_trans (ih x hx2) (le_max_right _ _)

lemma superKey_reachable_aux {E0 : List (String × String)} {rank : String → Nat}
    (hrank : ∀ e ∈ edgesWithRoot E0, rank e.1 < rank e.2) :
    ∀ n q, q ∈ superKeys (edgesWithRoot E0) →
      ((edgesWithRoot E0).map (fun e => rank e.2)).foldr max 0 < rank q + n →
      Reach (super_class_of (edgesWithRoot E0)) dummy_root q := by
  intro n
  induction n with
  | zero =>
    intro q hq hlt
    obtain ⟨e, he, h2⟩ := mem_superKeys.mp hq
    have hb : rank q ≤ ((edgesWithRoot E0).map (fun e => rank e.2)).foldr max 0 := by
      apply le_foldr_max
      rw [List.mem_map]
      exact ⟨e, he, by rw [h2]⟩
    omega
  | succ n ih =>
    intro q hq hlt
    by_cases hqr : q = dummy_root
    · rw [hqr]
      exact Reach.refl dummy_root
    · have hq0 : ∃ e ∈ E0, e.2 = q := by
        obtain ⟨e, he, h2⟩ := mem_superKeys.mp hq
        rcases List.mem_append.mp he with h0 | hatt
        · exact ⟨e, h0, h2⟩
        · obtain ⟨rt, hrt, hre⟩ := List.mem_map.mp hatt
          have : e.2 = dummy_root := by
            rw [← hre]
          rw [this] at h2
          exact absurd h2.symm hqr
      rcases hsub : sub_class_of E0 q with _ | ⟨q1, qs⟩
      · have hq_roots : q ∈ rootsOf E0 := by
          rw [rootsOf, List.mem_filter]
          refine ⟨mem_superKeys.mpr hq0, ?_⟩
          simp [hsub]
        have hmem : (q, dummy_root) ∈ edgesWithRoot E0 := by
          rw [edgesWithRoot]
          exact List.mem_append.mpr (Or.inr (List.mem_map.mpr ⟨q, hq_roots, rfl⟩))
        exact Reach.head (mem_super_class_of.mpr hmem) (Reach.refl q)
      · have hq1m : q1 ∈ sub_class_of E0 q := by
          rw [hsub]
          exact List.mem_cons_self q1 qs
        have hedge : (q, q1) ∈ E0 := mem_sub_class_of.mp hq1m
        have hedge2 : (q, q1) ∈ edgesWithRoot E0 := by
          rw [edgesWithRoot]
          exact List.mem_append.mpr (Or.inl hedge)
        have hq1k : q1 ∈ superKeys (edgesWithRoot E0) :=
          mem_superKeys.mpr ⟨(q, q1), hedge2, rfl⟩
        have hltq : rank q < rank q1 := hrank (q, q1) hedge2
        have hih := ih q1 hq1k (by omega)
        exact reach_tail hih (mem_super_class_of.mpr hedge2)

lemma superKey_reachable {E0 : List (String × String)} {rank : String → Nat}
    (hrank : ∀ e ∈ edgesWithRoot E0, rank e.1 < rank e.2) :
    ∀ q ∈ superKeys (edgesWithRoot E0),
      Reach (super_class_of (edgesWithRoot E0)) dummy_root q := by
  intro q hq
  exact superKey_reachable_aux hrank
    (((edgesWithRoot E0).map (fun e => rank e.2)).foldr max 0 + 1) q hq
    (by omega)

/-! ## C1 and C2: the closure equation and the root member set -/

/-- Counterexample to C1 as stated: in the `gWhier` fixture the leaf
concept `A` (visited by the traversal at depth 2, hence reachable from the
synthetic root) has parents `P(A) = [B]`, yet its computed closure is
`{root}` instead of `closure(B) ∪ {B} = {B, root}`: kb.py line 147 seeds
the direct parents only for predicates that themselves have children, so a
leaf's closure misses its direct parents. -/
theorem c1_counterexample :
    (buildKB 64 gWhier ["http://ex/"] true).toOption.map
      (fun kb =>
        (sub_class_of kb.edges "http://ex/A",
          kb.sub_class_of_closure "http://ex/A",
          (sub_class_of kb.edges "http://ex/A").toFinset.biUnion
            (fun q => insert q (kb.sub_class_of_closure q)),
          decide ("http://ex/A" ∈ kb.levels 2)))
      = some (["http://ex/B"], {"root"}, {"http://ex/B", "root"}, true) ∧
    ({"root"} : Finset String) ≠ {"http://ex/B", "root"} := by
  constructor
  · decide
  · decide

/-- C1 amended: in a successfully built knowledge base whose hierarchy is
acyclic (witnessed by a topological rank) and whose user concepts do not
collide with the literal `root` label, the synthetic root's closure is
empty and, for every predicate `p` of the hierarchy, the closure equation
of the claim holds exactly when `p` has children; a childless (leaf)
predicate instead receives only the union of its parents' closures --
the direct parents themselves are missing (kb.py lines 146-171). -/
theorem c1_closure_parent_union {fuel : Nat} {g0 : List Triple}
    {uns : List String} {ial : Bool} {kb : KB} (rank : String → Nat)
    (h : buildKB fuel g0 uns ial = Except.ok kb)
    (hroot : ∀ e ∈ hierarchyEdges g0.dedup uns ial,
      e.1 ≠ dummy_root ∧ e.2 ≠ dummy_root)
    (hrank : ∀ e ∈ kb.edges, rank e.1 < rank e.2) :
    kb.sub_class_of_closure dummy_root = ∅ ∧
    ∀ p ∈ kb.predicates, p ≠ dummy_root →
      (super_class_of kb.edges p ≠ [] →
        kb.sub_class_of_closure p =
          (sub_class_of kb.edges p).toFinset.biUnion
            (fun q => insert q (kb.sub_class_of_closure q))) ∧
      (super_class_of kb.edges p = [] →
        kb.sub_class_of_closure p =
          (sub_class_of kb.edges p).toFinset.biUnion
            kb.sub_class_of_closure) := by
  obtain ⟨examples, ex0, tl, stF, rr, bm, rbm, hle, hex, hrun, hbb, hkb⟩ :=
    buildKB_ok_elim h
  subst hkb
  have hrank2 : ∀ e ∈ edgesWithRoot (hierarchyEdges g0.dedup uns ial),
      rank e.1 < rank e.2 := hrank
  have hr : ∀ a b,
      b ∈ super_class_of (edgesWithRoot (hierarchyEdges g0.dedup uns ial)) a →
      rank b < rank a :=
    fun a b hb => hrank2 (b, a) (mem_super_class_of.mp hb)
  have hreach := superKey_reachable hrank2
  have hmono : ∀ x,
      initClosures (edgesWithRoot (hierarchyEdges g0.dedup uns ial)) x ⊆
        stF.closures x :=
    (closures_mono _ fuel).1 _ _ _ _ hrun
  have hupper : ∀ x e, e ∈ stF.closures x →
      e ∈ initClosures (edgesWithRoot (hierarchyEdges g0.dedup uns ial)) x ∨
        ∃ qq, x ∈ super_class_of
            (edgesWithRoot (hierarchyEdges g0.dedup uns ial)) qq ∧
          e ∈ stF.closures qq :=
    (closures_upper _ fuel).1 _ _ _ _ hrun
  have hmain : ∀ q,
      Reach (super_class_of (edgesWithRoot (hierarchyEdges g0.dedup uns ial)))
        dummy_root q →
      ∀ c ∈ super_class_of (edgesWithRoot (hierarchyEdges g0.dedup uns ial)) q,
        stF.closures q ⊆ stF.closures c :=
    (closures_main hr fuel).1 _ _ _ _ hrun
  have hrootnil := sub_class_of_root_nil hroot
  have hst0root :
      initClosures (edgesWithRoot (hierarchyEdges g0.dedup uns ial))
        dummy_root = ∅ := by
    rw [initClosures]
    by_cases hk : dummy_root ∈
        superKeys (edgesWithRoot (hierarchyEdges g0.dedup uns ial))
    · rw [if_pos hk, hrootnil]
      rfl
    · rw [if_neg hk]
  have hparent_incl : ∀ p,
      ∀ q ∈ sub_class_of (edgesWithRoot (hierarchyEdges g0.dedup uns ial)) p,
        stF.closures q ⊆ stF.closures p := by
    intro p q hq
    have hqe := mem_sub_class_of.mp hq
    have hqk : q ∈ superKeys (edgesWithRoot (hierarchyEdges g0.dedup uns ial)) :=
      mem_superKeys.mpr ⟨(p, q), hqe, rfl⟩
    exact hmain q (hreach q hqk) p (mem_super_class_of.mpr hqe)
  constructor
  · show stF.closures dummy_root = ∅
    have hstable : stF.closures dummy_root =
        initClosures (edgesWithRoot (hierarchyEdges g0.dedup uns ial))
          dummy_root := by
      by_contra hc
      obtain ⟨v, hv, hxv⟩ := (closures_chg _ fuel).1 _ _ _ _ hrun dummy_root hc
      have hvm : v ∈ sub_class_of
          (edgesWithRoot (hierarchyEdges g0.dedup uns ial)) dummy_root :=
        mem_sub_class_of.mpr (mem_super_class_of.mp hxv)
      rw [hrootnil] at hvm
      cases hvm
    rw [hstable, hst0root]
  · intro p hp hpne
    constructor
    · intro hchildren
      have hpk : p ∈
          superKeys (edgesWithRoot (hierarchyEdges g0.dedup uns ial)) :=
        superKeys_iff_children.mpr hchildren
      show stF.closures p =
        (sub_class_of (edgesWithRoot (hierarchyEdges g0.dedup uns ial))
          p).toFinset.biUnion (fun q => insert q (stF.closures q))
      ext e
      simp only [Finset.mem_biUnion, List.mem_toFinset, Finset.mem_insert]
      constructor
      · intro he
        rcases hupper p e he with h0 | ⟨qq, hqq, hqe⟩
        · rw [initClosures, if_pos hpk, List.mem_toFinset] at h0
          exact ⟨e, h0, Or.inl rfl⟩
        · exact ⟨qq, mem_sub_class_of.mpr (mem_super_class_of.mp hqq),
            Or.inr hqe⟩
      · rintro ⟨q, hq, heq | he⟩
        · have hseed : e ∈ initClosures
              (edgesWithRoot (hierarchyEdges g0.dedup uns ial)) p := by
            rw [initClosures, if_pos hpk, List.mem_toFinset, heq]
            exact hq
          exact hmono p hseed
        · exact hparent_incl p q hq he
    · intro hleaf
      have hpk : p ∉
          superKeys (edgesWithRoot (hierarchyEdges g0.dedup uns ial)) :=
        fun hc => (superKeys_iff_children.mp hc) hleaf
      show stF.closures p =
        (sub_class_of (edgesWithRoot (hierarchyEdges g0.dedup uns ial))
          p).toFinset.biUnion stF.closures
      ext e
      simp only [Finset.mem_biUnion, List.mem_toFinset]
      constructor
      · intro he
        rcases hupper p e he with h0 | ⟨qq, hqq, hqe⟩
        · rw [initClosures, if_neg hpk] at h0
          cases h0
        · exact ⟨qq, mem_sub_class_of.mpr (mem_super_class_of.mp hqq), hqe⟩
      · rintro ⟨q, hq, he⟩
        exact hparent_incl p q hq he

/-- Witness for the amended C1 at the `gWhier` fixture: the root closure is
empty and the leaf `A` satisfies the parent-union-without-parents form. -/
theorem c1_closure_parent_union_witness :
    kbWhier.sub_class_of_closure dummy_root = ∅ ∧
      kbWhier.sub_class_of_closure "http://ex/A" =
        (sub_class_of kbWhier.edges "http://ex/A").toFinset.biUnion
          kbWhier.sub_class_of_closure := by
  have hthm := @c1_closure_parent_union 64 gWhier ["http://ex/"] true kbWhier
    rankW (by rfl) (by decide) (by decide)
  exact ⟨hthm.1, (hthm.2 "http://ex/A" (by decide) (by decide)).2 (by decide)⟩

/-- Counterexample to C2 as stated: in the `gWnoann` fixture the population
has one example (id 0), but the synthetic root's stored member set is
empty, because the traversal overwrites every internal node's members with
the union over reachable leaves, and an example with no annotations belongs
to no leaf (kb.py lines 123-171). -/
theorem c2_counterexample :
    (buildKB 64 gWnoann ["http://ex/"] true).toOption.map
      (fun kb => (decide (0 ∈ kb.members dummy_root), kb.n_examples))
      = some (false, 1) := by
  decide

/-- C2 amended: after a successful construction the synthetic root's member
set contains exactly the example ids annotated with at least one leaf
concept reachable from the root; examples whose annotations all sit on
internal concepts, or which have no annotations, are missing, so the root's
member set need not cover the population (kb.py lines 123-171). -/
theorem c2_root_members {fuel : Nat} {g0 : List Triple}
    {uns : List String} {ial : Bool} {kb : KB}
    (h : buildKB fuel g0 uns ial = Except.ok kb) :
    ∀ i, i ∈ kb.members dummy_root ↔
      ∃ l, Reach (super_class_of kb.edges) dummy_root l ∧
        super_class_of kb.edges l = [] ∧
        i ∈ initMembers g0.dedup ial kb.examples (fun _ => ∅) l := by
  obtain ⟨examples, ex0, tl, stF, rr, bm, rbm, hle, hex, hrun, hbb, hkb⟩ :=
    buildKB_ok_elim h
  subst hkb
  obtain ⟨hleaf, hmir, hmempred⟩ := (members_mirror _ fuel).1 _ _ _ _ hrun
  intro i
  show i ∈ stF.members dummy_root ↔ _
  have hmem : stF.members dummy_root = rr := hmempred
  rw [hmem]
  exact (leafMems_reach _ fuel).1 _ _ _ hmir i

/-- Witness for the amended C2 at the `gWhier` fixture: example 0 is
annotated with the reachable leaf `A`, so it belongs to the root's member
set, via the equivalence the theorem provides. -/
theorem c2_root_members_witness :
    (0 ∈ kbWhier.members dummy_root ↔
      ∃ l, Reach (super_class_of kbWhier.edges) dummy_root l ∧
        super_class_of kbWhier.edges l = [] ∧
        0 ∈ initMembers gWhier.dedup true kbWhier.examples (fun _ => ∅) l) ∧
    0 ∈ kbWhier.members dummy_root := by
  have hthm := @c2_root_members 64 gWhier ["http://ex/"] true kbWhier (by rfl)
  refine ⟨hthm 0, (hthm 0).mpr ⟨"http://ex/A", ?_, by decide, by decide⟩⟩
  have h1 : Reach (super_class_of kbWhier.edges) "http://ex/B" "http://ex/A" :=
    Reach.head (by decide) (Reach.refl "http://ex/A")
  exact Reach.head (by decide) h1

end Hedwig
